import Mathlib

/-!
Verification of the beacon-chain consensus core: the swap-or-not shuffler
(`beacon-chain/utils/shuffle.go`), and models of the attestation store,
fork-choice engine (LMD-GHOST, FFG checkpoints, vote counting) and state
generator, whose implementations are known here only through the spec and
their tests.

Machine integers (Go `uint64`, `uint8`, `uint32`) are modelled as `Nat`
with explicit `% 2^w` reductions exactly where Go overflow/truncation can
occur.  Bytes are `Nat` values below 256, byte strings are `List Nat`.
The hash `hashutil.HashSha256` is SHA-256; it is implemented below and
checked against the standard test vectors.
-/

/-! ### SHA-256 over byte lists -/

def w32 : Nat := 2 ^ 32

def rotr32 (n x : Nat) : Nat :=
  ((x >>> n) ||| (x <<< (32 - n))) % w32

def shaK : List Nat :=
  [1116352408, 1899447441, 3049323471, 3921009573, 961987163, 1508970993,
   2453635748, 2870763221, 3624381080, 310598401, 607225278, 1426881987,
   1925078388, 2162078206, 2614888103, 3248222580, 3835390401, 4022224774,
   264347078, 604807628, 770255983, 1249150122, 1555081692, 1996064986,
   2554220882, 2821834349, 2952996808, 3210313671, 3336571891, 3584528711,
   113926993, 338241895, 666307205, 773529912, 1294757372, 1396182291,
   1695183700, 1986661051, 2177026350, 2456956037, 2730485921, 2820302411,
   3259730800, 3345764771, 3516065817, 3600352804, 4094571909, 275423344,
   430227734, 506948616, 659060556, 883997877, 958139571, 1322822218,
   1537002063, 1747873779, 1955562222, 2024104815, 2227730452, 2361852424,
   2428436474, 2756734187, 3204031479, 3329325298]

def shaInit : List Nat :=
  [1779033703, 3144134277, 1013904242, 2773480762,
   1359893119, 2600822924, 528734635, 1541459225]

/-- Big-endian byte string of a number, of the given width. -/
def natToBytesBE : Nat → Nat → List Nat
  | 0, _ => []
  | n + 1, x => natToBytesBE n (x / 256) ++ [x % 256]

/-- SHA-256 padding of a byte message: 0x80, zeros, 8-byte big-endian bit length. -/
def shaPad (msg : List Nat) : List Nat :=
  let l := msg.length
  let padZeros := (64 - (l + 9) % 64) % 64
  msg ++ [0x80] ++ List.replicate padZeros 0 ++ natToBytesBE 8 (l * 8)

/-- Split a byte string into 4-byte big-endian words. -/
def bytesToWords : List Nat → List Nat
  | b0 :: b1 :: b2 :: b3 :: rest =>
      (((b0 * 256 + b1) * 256 + b2) * 256 + b3) :: bytesToWords rest
  | _ => []

def iterateN (f : α → α) : Nat → α → α
  | 0, x => x
  | n + 1, x => iterateN f n (f x)

/-- One message-schedule extension step, on the reversed word list (newest word first). -/
def schedStepR (ws : List Nat) : List Nat :=
  let x2 := ws.getD 1 0
  let x7 := ws.getD 6 0
  let x15 := ws.getD 14 0
  let x16 := ws.getD 15 0
  let s0 := (rotr32 7 x15) ^^^ (rotr32 18 x15) ^^^ (x15 >>> 3)
  let s1 := (rotr32 17 x2) ^^^ (rotr32 19 x2) ^^^ (x2 >>> 10)
  ((x16 + s0 + x7 + s1) % w32) :: ws

/-- The 64-entry message schedule of a 16-word block. -/
def schedule (ws16 : List Nat) : List Nat :=
  (iterateN schedStepR 48 ws16.reverse).reverse

/-- One round of the compression function on working state `[a,b,c,d,e,f,g,h]`. -/
def compressStep (k w : Nat) : List Nat → List Nat
  | a :: b :: c :: d :: e :: f :: g :: h :: _ =>
    let s1 := (rotr32 6 e) ^^^ (rotr32 11 e) ^^^ (rotr32 25 e)
    let ch := (e &&& f) ^^^ ((w32 - 1 - e) &&& g)
    let t1 := (h + s1 + ch + k + w) % w32
    let s0 := (rotr32 2 a) ^^^ (rotr32 13 a) ^^^ (rotr32 22 a)
    let mj := (a &&& b) ^^^ (a &&& c) ^^^ (b &&& c)
    let t2 := (s0 + mj) % w32
    [(t1 + t2) % w32, a, b, c, (d + t1) % w32, e, f, g]
  | st => st

/-- Compress one 64-byte block into the running 8-word hash value. -/
def compressBlock (hv : List Nat) (block : List Nat) : List Nat :=
  let st := (shaK.zip (schedule (bytesToWords block))).foldl
    (fun st kw => compressStep kw.1 kw.2 st) hv
  List.zipWith (fun x y => (x + y) % w32) hv st

/-- Fold the compression function over 64-byte chunks; the fuel bounds the recursion. -/
def foldBlocks (fuel : Nat) (hv : List Nat) (l : List Nat) : List Nat :=
  match fuel, l with
  | 0, _ => hv
  | _, [] => hv
  | f + 1, a :: rest => foldBlocks f (compressBlock hv ((a :: rest).take 64)) ((a :: rest).drop 64)

/-- SHA-256 of a byte string, as 32 bytes.  Models `hashutil.HashSha256`
(not under `src/`; the spec fixes a 32-byte cryptographic digest, SHA-256). -/
def sha256 (msg : List Nat) : List Nat :=
  let padded := shaPad msg
  let hv := foldBlocks padded.length shaInit padded
  hv.foldr (fun wv acc => natToBytesBE 4 wv ++ acc) []

/-! ### The shuffler (`beacon-chain/utils/shuffle.go`)

`params.BeaconConfig().ShuffleRoundCount` is a configuration value outside
`src/`; it appears below as the explicit argument `roundCount`.  The Go code
narrows it to `uint8` (`rounds := uint8(...)`), which the model reproduces
with `% 256`.  `bytesutil.FromBytes8`/`bytesutil.ToBytes` are the standard
little-endian conversions, matching the in-src `binary.LittleEndian` use. -/

def maxShuffleListSize : Nat := 2 ^ 40

/-- Little-endian value of a byte string (models `bytesutil.FromBytes8` on 8 bytes). -/
def bytesToNatLE (bs : List Nat) : Nat := bs.foldr (fun b acc => b + 256 * acc) 0

/-- Little-endian byte string of a number, of the given width
(models `bytesutil.ToBytes(x, width)` and `binary.LittleEndian.PutUint32`). -/
def natToBytesLE : Nat → Nat → List Nat
  | 0, _ => []
  | n + 1, x => x % 256 :: natToBytesLE n (x / 256)

/-- `hash(seed ++ round)[0:8]` as a little-endian integer, reduced `mod n`:
the per-round pivot. -/
def pivotFor (seed : List Nat) (round n : Nat) : Nat :=
  bytesToNatLE ((sha256 (seed.take 32 ++ [round % 256])).take 8) % n

/-- `hash(seed ++ round ++ uint32le(posHi))`: the per-window randomness source. -/
def sourceHash (seed : List Nat) (round posHi : Nat) : List Nat :=
  sha256 (seed.take 32 ++ [round % 256] ++ natToBytesLE 4 posHi)

/-- The decision bit for a position: byte `(position % 256) / 8` of the source
hash at window `position >> 8`, bit `position % 8`. -/
def bitAt (seed : List Nat) (round pos : Nat) : Nat :=
  ((sourceHash seed round (pos >>> 8)).getD (pos % 256 / 8) 0 >>> (pos % 8)) % 2

/-- One swap-or-not round of `innerShuffledIndex`: flip the index across the
pivot when the decision bit of the pair's higher position is set. -/
def swapOrNotIndex (seed : List Nat) (n round index : Nat) : Nat :=
  let pivot := pivotFor seed round n
  let flip := (pivot + n - index) % n
  let position := max index flip
  if bitAt seed round position == 1 then flip else index

/-- Number of loop iterations of `innerShuffledIndex` for a nonzero configured
round count: the Go loop increments a `uint8` until it equals
`uint8(roundCount)`, so a nonzero multiple of 256 runs 256 rounds. -/
def effRounds (roundCount : Nat) : Nat :=
  if roundCount % 256 == 0 then 256 else roundCount % 256

/-- Bounds violations of the shuffling primitives (`fmt.Errorf` returns in Go). -/
inductive BoundsError where
  | indexOutOfBounds (index indexCount : Nat)
  | listSizeOutOfBounds (size : Nat)
deriving DecidableEq

/-- `innerShuffledIndex(index, indexCount, seed, shuffle)`: identity when the
configured round count is zero, bounds checks, then the swap-or-not rounds
(ascending to shuffle, descending to un-shuffle). -/
def innerShuffledIndex (roundCount index indexCount : Nat) (seed : List Nat)
    (shuffle : Bool) : Except BoundsError Nat :=
  if roundCount = 0 then .ok index
  else if index ≥ indexCount then .error (.indexOutOfBounds index indexCount)
  else if indexCount > maxShuffleListSize then .error (.listSizeOutOfBounds indexCount)
  else
    let seq := if shuffle then List.range (effRounds roundCount)
      else (List.range (effRounds roundCount)).reverse
    .ok (seq.foldl (fun idx r => swapOrNotIndex seed indexCount r idx) index)

/-- `ShuffledIndex(index, indexCount, seed)`. -/
def ShuffledIndex (roundCount index indexCount : Nat) (seed : List Nat) : Except BoundsError Nat :=
  innerShuffledIndex roundCount index indexCount seed true

/-- `UnShuffledIndex(index, indexCount, seed)`. -/
def UnShuffledIndex (roundCount index indexCount : Nat) (seed : List Nat) : Except BoundsError Nat :=
  innerShuffledIndex roundCount index indexCount seed false

/-- The mutable state threaded through the list sweeps: the array plus the
cached `byteV` and `source` hash of `swapOrNot`. -/
structure SweepState where
  arr : List Nat
  byteV : Nat
  source : List Nat

/-- `input[i], input[j] = input[j], input[i]`. -/
def listSwap (arr : List Nat) (i j : Nat) : List Nat :=
  (arr.set i (arr.getD j 0)).set j (arr.getD i 0)

/-- `swapOrNot(buf, byteV, i, input, j, source)`: refresh the cached hash at a
256-window boundary and the cached byte at an 8-window boundary, then swap
`input[i]`/`input[j]` iff bit `j % 8` of the byte is set. -/
def swapOrNot (seed : List Nat) (r : Nat) (st : SweepState) (i j : Nat) : SweepState :=
  let source := if j % 256 == 255 then sourceHash seed r (j >>> 8) else st.source
  let byteV := if j % 8 == 7 then source.getD (j % 256 / 8) 0 else st.byteV
  let bitV := (byteV >>> (j % 8)) % 2
  { arr := if bitV == 1 then listSwap st.arr i j else st.arr, byteV := byteV, source := source }

/-- The mirrored pair list of one sweep: `cnt` steps of
`i, j = iStart, jStart; i++, j--`. -/
def sweepPairs (iStart jStart cnt : Nat) : List (Nat × Nat) :=
  (List.range cnt).map (fun k => (iStart + k, jStart - k))

/-- Run `swapOrNot` over a pair list. -/
def runSweep (seed : List Nat) (r : Nat) (pairs : List (Nat × Nat)) (st : SweepState) : SweepState :=
  pairs.foldl (fun s p => swapOrNot seed r s p.1 p.2) st

/-- One round of `innerShuffleList`: the two mirrored double-pointer sweeps,
`0..pivot` around `(pivot+1)/2` and `pivot+1..n-1` around `(pivot+n+1)/2`,
each seeded with a fresh source hash and byte. -/
def shuffleListRound (seed : List Nat) (n : Nat) (arr : List Nat) (r : Nat) : List Nat :=
  let pivot := pivotFor seed r n
  let mirror1 := (pivot + 1) / 2
  let source1 := sourceHash seed r (pivot >>> 8)
  let st1 := runSweep seed r (sweepPairs 0 pivot mirror1)
    { arr := arr, byteV := source1.getD (pivot % 256 / 8) 0, source := source1 }
  let endIdx := n - 1
  let mirror2 := (pivot + n + 1) / 2
  let source2 := sourceHash seed r (endIdx >>> 8)
  let st2 := runSweep seed r (sweepPairs (pivot + 1) endIdx (mirror2 - (pivot + 1)))
    { arr := st1.arr, byteV := source2.getD (endIdx % 256 / 8) 0, source := source2 }
  st2.arr

/-- `innerShuffleList(input, seed, shuffle)`: no-op for short lists, size bound,
identity when the `uint8`-narrowed round count is zero, then the per-round
sweeps (ascending to shuffle, descending to un-shuffle). -/
def innerShuffleList (roundCount : Nat) (input : List Nat) (seed : List Nat)
    (shuffle : Bool) : Except BoundsError (List Nat) :=
  if input.length ≤ 1 then .ok input
  else if input.length > maxShuffleListSize then .error (.listSizeOutOfBounds input.length)
  else if roundCount % 256 = 0 then .ok input
  else
    let seq := if shuffle then List.range (roundCount % 256)
      else (List.range (roundCount % 256)).reverse
    .ok (seq.foldl (shuffleListRound seed input.length) input)

/-- `ShuffleList(input, seed)`. -/
def ShuffleList (roundCount : Nat) (input : List Nat) (seed : List Nat) :
    Except BoundsError (List Nat) :=
  innerShuffleList roundCount input seed true

/-- `UnshuffleList(input, seed)`. -/
def UnshuffleList (roundCount : Nat) (input : List Nat) (seed : List Nat) :
    Except BoundsError (List Nat) :=
  innerShuffleList roundCount input seed false

/-- `SplitOffset(listSize, chunks, index) = (listSize * index) / chunks` in Go
`uint64` arithmetic: the product wraps modulo `2^64`. -/
def SplitOffset (listSize chunks index : Nat) : Nat :=
  (listSize * index) % 2 ^ 64 / chunks

/-- `SplitIndices(l, n)`: the `n` contiguous slices
`l[SplitOffset(|l|,n,i) : SplitOffset(|l|,n,i+1)]`. -/
def SplitIndices (l : List Nat) (n : Nat) : List (List Nat) :=
  (List.range n).map (fun i =>
    (l.drop (SplitOffset l.length n i)).take
      (SplitOffset l.length n (i + 1) - SplitOffset l.length n i))

/-- A fixed 32-byte seed used for concrete instances. -/
def cSeed : List Nat := List.range 32

/-! ### Proof-side views of the list sweep -/

/-- The conditional swap a sweep step performs, keyed by the decision bit of
the pair's higher position `p.2`. -/
def condSwap (seed : List Nat) (r : Nat) (arr : List Nat) (p : Nat × Nat) : List Nat :=
  if bitAt seed r p.2 == 1 then listSwap arr p.1 p.2 else arr

/-- The sweep with the hash/byte caching stripped: each pair reads its decision
bit directly. -/
def simpleSweep (seed : List Nat) (r : Nat) (pairs : List (Nat × Nat)) (arr : List Nat) :
    List Nat :=
  pairs.foldl (condSwap seed r) arr

/-- The cache invariant of a sweep state: `source` and `byteV` hold the hash
window and byte of position `j`. -/
def okFor (seed : List Nat) (r : Nat) (st : SweepState) (j : Nat) : Prop :=
  st.source = sourceHash seed r (j >>> 8) ∧
  st.byteV = (sourceHash seed r (j >>> 8)).getD (j % 256 / 8) 0

/-! ### Attestation store (`UpdateLatestAttestation` is not under `src/`) -/

/-- An attestation as the store keeps it: target slot, shard, attested block. -/
structure Attestation where
  slot : Nat
  shard : Nat
  beaconBlockRoot : Nat
deriving DecidableEq

/-- Modelled from the spec: the per-validator record update of
`UpdateLatestAttestation` (implementation missing from `src/`, only its tests
are present): the stored latest attestation of a validator is overwritten iff
the incoming attestation's target slot is greater than or equal to the stored
one (ties accept the new record); other validators' records are untouched. -/
def updateLatestAttestation (store : Nat → Option Attestation) (pk : Nat)
    (att : Attestation) : Nat → Option Attestation :=
  fun q =>
    if q = pk then
      match store pk with
      | none => some att
      | some cur => if cur.slot ≤ att.slot then some att else some cur
    else store q

/-- A sequence of updates for one validator, applied in order. -/
def updateLatestSequence (pk : Nat) (atts : List Attestation)
    (store : Nat → Option Attestation) : Nat → Option Attestation :=
  atts.foldl (fun st a => updateLatestAttestation st pk a) store

/-- The store with no recorded attestations. -/
def emptyAttStore : Nat → Option Attestation := fun _ => none

/-! ### Fork choice (blocks, checkpoints, LMD-GHOST, vote counting);
the `blockchain` package implementation is not under `src/`, only its tests -/

/-- A block as fork choice sees it: slot, own root, parent root. -/
structure Block where
  slot : Nat
  root : Nat
  parentRoot : Nat
deriving DecidableEq

/-- Modelled from the spec: resolution of a nominal (possibly skip) slot to
the last available block at or before it, walking backward through the
canonical chain from the current head (the chain list starts at the head). -/
def lastBlockAtOrBefore (chain : List Block) (slot : Nat) : Option Block :=
  chain.find? (fun b => decide (b.slot ≤ slot))

/-- The justified and finalized checkpoints as persisted. -/
structure CheckPts where
  justifiedEpoch : Nat
  justifiedBlock : Block
  finalizedEpoch : Nat
  finalizedBlock : Block
deriving DecidableEq

/-- The two FFG epochs carried by a beacon state. -/
structure FFGState where
  currentJustifiedEpoch : Nat
  finalizedEpoch : Nat
deriving DecidableEq

/-- Modelled from the spec: `updateFFGCheckPts` overwrites the stored justified
(resp. finalized) checkpoint only when the state's current-justified (resp.
finalized) epoch exceeds the stored one, persisting the last available block
at or before the epoch's start slot; the two updates are independent. -/
def justifiedUpdate (slotsPerEpoch : Nat) (chain : List Block) (cp : CheckPts)
    (st : FFGState) : CheckPts :=
  if cp.justifiedEpoch < st.currentJustifiedEpoch then
    match lastBlockAtOrBefore chain (st.currentJustifiedEpoch * slotsPerEpoch) with
    | some b => { cp with justifiedEpoch := st.currentJustifiedEpoch, justifiedBlock := b }
    | none => cp
  else cp

/-- The finalized half of `updateFFGCheckPts`: independent of the justified
half. -/
def finalizedUpdate (slotsPerEpoch : Nat) (chain : List Block) (cp : CheckPts)
    (st : FFGState) : CheckPts :=
  if cp.finalizedEpoch < st.finalizedEpoch then
    match lastBlockAtOrBefore chain (st.finalizedEpoch * slotsPerEpoch) with
    | some b => { cp with finalizedEpoch := st.finalizedEpoch, finalizedBlock := b }
    | none => cp
  else cp

def updateFFGCheckPts (slotsPerEpoch : Nat) (chain : List Block) (cp : CheckPts)
    (st : FFGState) : CheckPts :=
  finalizedUpdate slotsPerEpoch chain (justifiedUpdate slotsPerEpoch chain cp st) st

/-- Look a block up by root in the block store. -/
def lookupBlock (store : List Block) (root : Nat) : Option Block :=
  store.find? (fun b => b.root == root)

/-- Modelled from the spec: `BlockChildren` returns the stored blocks whose
parent root equals the given block's root, restricted to slots at or below the
state's slot. -/
def BlockChildren (store : List Block) (b : Block) (stateSlot : Nat) : List Block :=
  store.filter (fun c => c.parentRoot == b.root && decide (c.slot ≤ stateSlot))

/-- A per-validator vote target: `(slot, blockRoot, parentRoot)`. -/
structure AttestationTarget where
  slot : Nat
  blockRoot : Nat
  parentRoot : Nat
deriving DecidableEq

/-- A validator as vote counting sees it. -/
structure Validator where
  effectiveBalance : Nat
deriving DecidableEq

/-- Modelled from the spec: walk up the parent chain from `root` until a block
at or below `slot`; `none` when the walk meets an unknown block or parent. -/
def ancestorAtSlot (store : List Block) : Nat → Nat → Nat → Option Block
  | 0, _, _ => none
  | fuel + 1, root, slot =>
    match lookupBlock store root with
    | none => none
    | some b => if b.slot ≤ slot then some b else ancestorAtSlot store fuel b.parentRoot slot

/-- The vote weight one validator's target contributes to a candidate: its
effective balance when the target's ancestor at the candidate's slot is the
candidate, zero when there is no target, the walk dies, or the ancestor
differs. -/
def voteContribution (store : List Block) (candidate : Block) (balance : Nat) :
    Option AttestationTarget → Nat
  | none => 0
  | some t =>
    match ancestorAtSlot store (store.length + 1) t.blockRoot candidate.slot with
    | none => 0
    | some a => if a.root == candidate.root then balance else 0

/-- Modelled from the spec: `VoteCount(candidate, state, targets, db)`
accumulates, over every validator index of the registry, the effective balance
of those whose vote target equals or descends from the candidate; missing
targets and dead ancestor walks contribute zero without failing. -/
def VoteCount (candidate : Block) (registry : List Validator)
    (targets : Nat → Option AttestationTarget) (store : List Block) : Nat :=
  (List.range registry.length).foldl
    (fun acc idx => acc + voteContribution store candidate
      ((registry.getD idx ⟨0⟩).effectiveBalance) (targets idx)) 0

/-- Whether a vote target supports the candidate (its block equals the
candidate or descends from it, and the ancestor walk survives). -/
def supportsCandidate (store : List Block) (candidate : Block) :
    Option AttestationTarget → Bool
  | none => false
  | some t =>
    match ancestorAtSlot store (store.length + 1) t.blockRoot candidate.slot with
    | none => false
    | some a => a.root == candidate.root

/-- Modelled from the spec: the child with the strictly greatest vote count;
the running best is replaced only by a strictly greater count, so ties keep
the earlier candidate and a strict winner is selected in any order. -/
def bestChild (registry : List Validator) (targets : Nat → Option AttestationTarget)
    (store : List Block) : List Block → Option Block
  | [] => none
  | c :: cs => some (cs.foldl (fun best d =>
      if VoteCount best registry targets store < VoteCount d registry targets store
      then d else best) c)

/-- Modelled from the spec: `lmdGhost(startBlock, state, voteTargets)` descends
from the start block into the highest-voted child among the children at or
below the state's slot, until a block with no children is reached.  The fuel
bounds the descent (the Go code iterates over a finite store). -/
def lmdGhost (fuel : Nat) (store : List Block) (registry : List Validator)
    (targets : Nat → Option AttestationTarget) (stateSlot : Nat) (start : Block) : Block :=
  match fuel with
  | 0 => start
  | fuel + 1 =>
    match bestChild registry targets store (BlockChildren store start stateSlot) with
    | none => start
    | some c => lmdGhost fuel store registry targets stateSlot c

/-! ### State generator (`GenerateStateFromBlock` is not under `src/`) -/

/-- Apply the per-slot transition for each listed slot, with the canonical
block at that slot when one exists. -/
def applySlots {σ : Type} (advance : σ → Option Block → σ) (blockAt : Nat → Option Block)
    (st : σ) (slots : List Nat) : σ :=
  slots.foldl (fun s slot => advance s (blockAt slot)) st

/-- The ascending slot list `a+1, ..., a+cnt`. -/
def slotsFrom (a cnt : Nat) : List Nat :=
  (List.range cnt).map (fun k => a + 1 + k)

/-- Modelled from the spec: `GenerateStateFromBlock(ctx, targetSlot)` replays
every slot from the saved state's slot (exclusive) to the target (inclusive),
applying the state-transition collaborator with the canonical block when one
exists at the slot and with no block for skip slots. -/
def GenerateStateFromBlock {σ : Type} (advance : σ → Option Block → σ) (slotOf : σ → Nat)
    (blockAt : Nat → Option Block) (saved : σ) (target : Nat) : σ :=
  applySlots advance blockAt saved (slotsFrom (slotOf saved) (target - slotOf saved))

/-- `count` no-block slot transitions in a row. -/
def advanceEmpty {σ : Type} (advance : σ → Option Block → σ) (count : Nat) (st : σ) : σ :=
  iterateN (fun s => advance s none) count st

/-- Live sequential processing of a block history: for each block in arrival
order, the skipped slots before it are advanced without a block, then the
block is applied; finally the state is advanced to the target slot. -/
def liveProcessTo {σ : Type} (advance : σ → Option Block → σ) (slotOf : σ → Nat)
    (blocks : List Block) (st : σ) (target : Nat) : σ :=
  let afterBlocks := blocks.foldl
    (fun s b => advance (advanceEmpty advance (b.slot - slotOf s - 1) s) (some b)) st
  advanceEmpty advance (target - slotOf afterBlocks) afterBlocks

/-- The canonical-chain lookup of a block history list. -/
def blockAtOf (blocks : List Block) : Nat → Option Block :=
  fun s => blocks.find? (fun b => b.slot == s)

/-! ### C1: the swap-or-not round is an involution, so the reversed rounds invert -/

lemma pivotFor_lt (seed : List Nat) (r n : Nat) (hn : 0 < n) : pivotFor seed r n < n :=
  Nat.mod_lt _ hn

lemma flip_lt (p n x : Nat) (hn : 0 < n) : (p + n - x) % n < n :=
  Nat.mod_lt _ hn

lemma flip_flip (p n x : Nat) (hp : p < n) (hx : x < n) :
    (p + n - (p + n - x) % n) % n = x := by
  rcases le_or_lt x p with h | h
  · have h1 : (p + n - x) % n = p - x := by
      have h2 : p + n - x = (p - x) + n := by omega
      rw [h2, Nat.add_mod_right, Nat.mod_eq_of_lt (by omega)]
    rw [h1]
    have h3 : p + n - (p - x) = x + n := by omega
    rw [h3, Nat.add_mod_right, Nat.mod_eq_of_lt hx]
  · have h1 : (p + n - x) % n = p + n - x := Nat.mod_eq_of_lt (by omega)
    rw [h1]
    have h2 : p + n - (p + n - x) = x := by omega
    rw [h2, Nat.mod_eq_of_lt hx]

lemma swapOrNotIndex_eq (seed : List Nat) (n r x : Nat) :
    swapOrNotIndex seed n r x =
      if bitAt seed r (max x ((pivotFor seed r n + n - x) % n)) == 1
      then (pivotFor seed r n + n - x) % n else x := rfl

lemma swapOrNotIndex_lt (seed : List Nat) (n r x : Nat) (hn : 0 < n) (hx : x < n) :
    swapOrNotIndex seed n r x < n := by
  rw [swapOrNotIndex_eq]
  split
  · exact flip_lt _ _ _ hn
  · exact hx

lemma swapOrNotIndex_invol (seed : List Nat) (n r x : Nat) (hn : 0 < n) (hx : x < n) :
    swapOrNotIndex seed n r (swapOrNotIndex seed n r x) = x := by
  have hp : pivotFor seed r n < n := pivotFor_lt seed r n hn
  have hff : (pivotFor seed r n + n - (pivotFor seed r n + n - x) % n) % n = x :=
    flip_flip _ n x hp hx
  by_cases hb : bitAt seed r (max x ((pivotFor seed r n + n - x) % n)) == 1
  · have hxv : swapOrNotIndex seed n r x = (pivotFor seed r n + n - x) % n := by
      rw [swapOrNotIndex_eq, if_pos hb]
    rw [hxv, swapOrNotIndex_eq, hff, Nat.max_comm, if_pos hb]
  · have hxv : swapOrNotIndex seed n r x = x := by
      rw [swapOrNotIndex_eq, if_neg hb]
    rw [hxv]
    exact hxv

lemma foldl_swapOrNotIndex_lt (seed : List Nat) (n : Nat) (hn : 0 < n) :
    ∀ (l : List Nat) (x : Nat), x < n →
      l.foldl (fun idx r => swapOrNotIndex seed n r idx) x < n := by
  intro l
  induction l with
  | nil => intro x hx; exact hx
  | cons a t ih =>
    intro x hx
    exact ih _ (swapOrNotIndex_lt seed n a x hn hx)

lemma foldl_swapOrNotIndex_reverse (seed : List Nat) (n : Nat) (hn : 0 < n) :
    ∀ (l : List Nat) (x : Nat), x < n →
      l.reverse.foldl (fun idx r => swapOrNotIndex seed n r idx)
        (l.foldl (fun idx r => swapOrNotIndex seed n r idx) x) = x := by
  intro l
  induction l with
  | nil => intro x hx; rfl
  | cons a t ih =>
    intro x hx
    have hx' : swapOrNotIndex seed n a x < n := swapOrNotIndex_lt seed n a x hn hx
    simp only [List.foldl_cons, List.reverse_cons, List.foldl_append, List.foldl_nil]
    rw [ih _ hx']
    exact swapOrNotIndex_invol seed n a x hn hx

/-- C1: Shuffle invertibility.  For every 32-byte seed `s`, every `indexCount`
`n` with `0 < n <= 2^40` and every index `i < n`,
`UnShuffledIndex(ShuffledIndex(i, n, s), n, s)` returns `i`, for any
configured round count, including zero. -/
theorem unshuffledIndex_shuffledIndex_eq_self
    (roundCount n i : Nat) (s : List Nat) (hs : s.length = 32)
    (hi : i < n) (hn : n ≤ 2 ^ 40) :
    (ShuffledIndex roundCount i n s).bind
      (fun j => UnShuffledIndex roundCount j n s) = Except.ok i := by
  have hn0 : 0 < n := Nat.lt_of_le_of_lt (Nat.zero_le i) hi
  by_cases hrc : roundCount = 0
  · simp [ShuffledIndex, UnShuffledIndex, innerShuffledIndex, hrc, Except.bind]
  · have hni : ¬ i ≥ n := Nat.not_le_of_lt hi
    have hbound : ¬ n > maxShuffleListSize := by
      simp only [maxShuffleListSize]
      omega
    have hj : (List.range (effRounds roundCount)).foldl
        (fun idx r => swapOrNotIndex s n r idx) i < n :=
      foldl_swapOrNotIndex_lt s n hn0 _ i hi
    have hjn : ¬ (List.range (effRounds roundCount)).foldl
        (fun idx r => swapOrNotIndex s n r idx) i ≥ n := Nat.not_le_of_lt hj
    simp only [ShuffledIndex, UnShuffledIndex, innerShuffledIndex, if_neg hrc,
      if_neg hni, if_neg hbound, if_neg hjn, if_true, Except.bind]
    exact congrArg Except.ok (foldl_swapOrNotIndex_reverse s n hn0 _ i hi)

/-- Witness for C1: concrete instance at round count 90, `n = 10`, `i = 3`. -/
theorem unshuffledIndex_shuffledIndex_eq_self_witness :
    (ShuffledIndex 90 3 10 cSeed).bind
      (fun j => UnShuffledIndex 90 j 10 cSeed) = Except.ok 3 :=
  unshuffledIndex_shuffledIndex_eq_self 90 10 3 cSeed (by decide) (by decide) (by decide)

/-- C10: when the configured round count is zero, `ShuffledIndex` and
`UnShuffledIndex` return `(index, nil)` for every input, including inputs with
`index >= indexCount` or `indexCount > 2^40`: the identity early return
precedes the bounds checks, so no `BoundsError` is produced. -/
theorem zeroRounds_identity_bypasses_bounds (index indexCount : Nat) (s : List Nat) :
    ShuffledIndex 0 index indexCount s = Except.ok index ∧
    UnShuffledIndex 0 index indexCount s = Except.ok index :=
  ⟨rfl, rfl⟩

/-- Counterexample for C8: with configured round count zero, the out-of-bounds
input `index = 5 >= indexCount = 3` is not rejected: `ShuffledIndex` returns
`(5, nil)` instead of a `BoundsError`, and likewise `UnShuffledIndex`. -/
theorem shuffledIndex_bounds_counterexample :
    5 ≥ 3 ∧ ShuffledIndex 0 5 3 cSeed = Except.ok 5 ∧
      UnShuffledIndex 0 5 3 cSeed = Except.ok 5 :=
  ⟨by decide, rfl, rfl⟩

/-- C8 as amended: for every nonzero configured round count, `ShuffledIndex`
and `UnShuffledIndex` return a `BoundsError` whenever `index >= indexCount` or
`indexCount > 2^40`; for every configured round count, including zero,
`ShuffleList` and `UnshuffleList` return a `BoundsError` whenever the input
length exceeds `2^40`; and with round count zero the index functions return
`(index, nil)` even on the violating inputs. -/
theorem shuffle_bounds_errors (roundCount n i : Nat) (s : List Nat) (input : List Nat)
    (hbad : i ≥ n ∨ n > 2 ^ 40) (hlen : input.length > 2 ^ 40) :
    (roundCount ≠ 0 →
      (∃ e, ShuffledIndex roundCount i n s = Except.error e) ∧
      (∃ e, UnShuffledIndex roundCount i n s = Except.error e)) ∧
    (roundCount = 0 →
      ShuffledIndex roundCount i n s = Except.ok i ∧
      UnShuffledIndex roundCount i n s = Except.ok i) ∧
    (∃ e, ShuffleList roundCount input s = Except.error e) ∧
    (∃ e, UnshuffleList roundCount input s = Except.error e) := by
  have hlist : ∀ b, ∃ e, innerShuffleList roundCount input s b = Except.error e := by
    intro b
    have h1 : ¬ input.length ≤ 1 := by omega
    have h2 : input.length > maxShuffleListSize := by
      simp only [maxShuffleListSize]
      omega
    refine ⟨.listSizeOutOfBounds input.length, ?_⟩
    simp only [innerShuffleList, if_neg h1, if_pos h2]
  have hidx : ∀ b, roundCount ≠ 0 →
      ∃ e, innerShuffledIndex roundCount i n s b = Except.error e := by
    intro b hrc
    by_cases hge : i ≥ n
    · refine ⟨.indexOutOfBounds i n, ?_⟩
      simp only [innerShuffledIndex, if_neg hrc, if_pos hge]
    · have hgt : n > maxShuffleListSize := by
        rcases hbad with h | h
        · exact absurd h hge
        · simp only [maxShuffleListSize]
          omega
      refine ⟨.listSizeOutOfBounds n, ?_⟩
      simp only [innerShuffledIndex, if_neg hrc, if_neg hge, if_pos hgt]
  refine ⟨fun hrc => ⟨hidx true hrc, hidx false hrc⟩, fun hz => ?_, hlist true, hlist false⟩
  subst hz
  exact ⟨rfl, rfl⟩

/-- Witness for C8 as amended: `i = 5 >= n = 3` and a list of length
`2^40 + 1`, at round count 1. -/
theorem shuffle_bounds_errors_witness :
    ((1 : Nat) ≠ 0 →
      (∃ e, ShuffledIndex 1 5 3 cSeed = Except.error e) ∧
      (∃ e, UnShuffledIndex 1 5 3 cSeed = Except.error e)) ∧
    ((1 : Nat) = 0 →
      ShuffledIndex 1 5 3 cSeed = Except.ok 5 ∧
      UnShuffledIndex 1 5 3 cSeed = Except.ok 5) ∧
    (∃ e, ShuffleList 1 (List.replicate (2 ^ 40 + 1) 0) cSeed = Except.error e) ∧
    (∃ e, UnshuffleList 1 (List.replicate (2 ^ 40 + 1) 0) cSeed = Except.error e) :=
  shuffle_bounds_errors 1 3 5 cSeed (List.replicate (2 ^ 40 + 1) 0)
    (Or.inl (by decide)) (by rw [List.length_replicate]; omega)

/-- Counterexample for C9: `SplitOffset` multiplies in `uint64`, so at
`listSize = 2^63`, `chunks = 4`, `index = 3` (which satisfies
`0 <= index <= chunks`) the product wraps and the result differs from
`floor(listSize * index / chunks)` in exact integer arithmetic. -/
theorem splitOffset_counterexample :
    SplitOffset (2 ^ 63) 4 3 ≠ 2 ^ 63 * 3 / 4 := by decide

lemma getD_map_range {α : Type} (k i : Nat) (f : Nat → α) (d : α) (h : i < k) :
    ((List.range k).map f).getD i d = f i := by
  have hl : i < ((List.range k).map f).length := by simpa using h
  rw [List.getD_eq_getElem _ _ hl]
  simp

lemma take_slices_join {α : Type} (l : List α) (o : Nat → Nat) :
    ∀ k, (∀ i, i < k → o i ≤ o (i + 1)) → o 0 = 0 →
      ((List.range k).map (fun i => (l.drop (o i)).take (o (i + 1) - o i))).flatten
        = l.take (o k) := by
  intro k
  induction k with
  | zero => intro _ h0; simp [h0]
  | succ m ih =>
    intro hmono h0
    rw [List.range_succ, List.map_append, List.flatten_append]
    rw [ih (fun i hi => hmono i (Nat.lt_succ_of_lt hi)) h0]
    simp only [List.map_cons, List.map_nil, List.flatten_cons, List.flatten_nil, List.append_nil]
    have hm : o m ≤ o (m + 1) := hmono m (Nat.lt_succ_self m)
    rw [← List.take_add]
    congr 1
    omega

/-- C9 as amended: whenever `listSize * index` does not overflow `uint64`,
`SplitOffset(listSize, chunks, index) = floor(listSize * index / chunks)` for
`chunks > 0` and `0 <= index <= chunks`; and for `|l| * k < 2^64`, `k > 0`,
`SplitIndices(l, k)` returns exactly `k` contiguous slices
`l[SplitOffset(|l|,k,i) : SplitOffset(|l|,k,i+1)]` whose concatenation is `l`. -/
theorem splitOffset_splitIndices_correct (listSize chunks index : Nat) (l : List Nat) (k : Nat)
    (hc : 0 < chunks) (hin : index ≤ chunks) (hov : listSize * index < 2 ^ 64)
    (hk : 0 < k) (hlk : l.length * k < 2 ^ 64) :
    SplitOffset listSize chunks index = listSize * index / chunks ∧
    (SplitIndices l k).length = k ∧
    (∀ i, i < k → (SplitIndices l k).getD i [] =
      (l.drop (SplitOffset l.length k i)).take
        (SplitOffset l.length k (i + 1) - SplitOffset l.length k i)) ∧
    (SplitIndices l k).flatten = l := by
  have hoff : ∀ j, j ≤ k → SplitOffset l.length k j = l.length * j / k := by
    intro j hj
    have hle : l.length * j ≤ l.length * k := Nat.mul_le_mul_left _ hj
    simp only [SplitOffset]
    rw [Nat.mod_eq_of_lt (by omega)]
  refine ⟨?_, ?_, ?_, ?_⟩
  · simp only [SplitOffset]
    rw [Nat.mod_eq_of_lt hov]
  · simp [SplitIndices]
  · intro i hi
    simp only [SplitIndices]
    exact getD_map_range k i _ [] hi
  · simp only [SplitIndices]
    have hmono : ∀ i, i < k → SplitOffset l.length k i ≤ SplitOffset l.length k (i + 1) := by
      intro i hi
      rw [hoff i (le_of_lt hi), hoff (i + 1) hi]
      exact Nat.div_le_div_right (Nat.mul_le_mul_left _ (by omega))
    have h0 : SplitOffset l.length k 0 = 0 := by
      simp [SplitOffset]
    rw [take_slices_join l _ k hmono h0, hoff k (le_refl k), Nat.mul_div_cancel _ hk]
    exact List.take_length l

/-- Witness for C9 as amended: `SplitOffset(30,3,2) = 20` and `SplitIndices` on
`[0..10)` with 3 chunks. -/
theorem splitOffset_splitIndices_correct_witness :
    SplitOffset 30 3 2 = 30 * 2 / 3 ∧
    (SplitIndices (List.range 10) 3).length = 3 ∧
    (∀ i, i < 3 → (SplitIndices (List.range 10) 3).getD i [] =
      ((List.range 10).drop (SplitOffset (List.range 10).length 3 i)).take
        (SplitOffset (List.range 10).length 3 (i + 1) -
          SplitOffset (List.range 10).length 3 i)) ∧
    (SplitIndices (List.range 10) 3).flatten = List.range 10 :=
  splitOffset_splitIndices_correct 30 3 2 (List.range 10) 3
    (by decide) (by decide) (by decide) (by decide) (by decide)

/-! ### SHA-256 sanity checks against the standard test vectors -/

set_option maxHeartbeats 1000000 in
/-- SHA-256 of the empty message is
`e3b0c442 98fc1c14 9afbf4c8 996fb924 27ae41e4 649b934c a495991b 7852b855`. -/
theorem sha256_empty_vector :
    sha256 [] = [0xe3, 0xb0, 0xc4, 0x42, 0x98, 0xfc, 0x1c, 0x14,
                 0x9a, 0xfb, 0xf4, 0xc8, 0x99, 0x6f, 0xb9, 0x24,
                 0x27, 0xae, 0x41, 0xe4, 0x64, 0x9b, 0x93, 0x4c,
                 0xa4, 0x95, 0x99, 0x1b, 0x78, 0x52, 0xb8, 0x55] := by rfl

set_option maxHeartbeats 1000000 in
/-- SHA-256 of `"abc"` is
`ba7816bf 8f01cfea 414140de 5dae2223 b00361a3 96177a9c b410ff61 f20015ad`. -/
theorem sha256_abc_vector :
    sha256 [0x61, 0x62, 0x63] =
      [0xba, 0x78, 0x16, 0xbf, 0x8f, 0x01, 0xcf, 0xea,
       0x41, 0x41, 0x40, 0xde, 0x5d, 0xae, 0x22, 0x23,
       0xb0, 0x03, 0x61, 0xa3, 0x96, 0x17, 0x7a, 0x9c,
       0xb4, 0x10, 0xff, 0x61, 0xf2, 0x00, 0x15, 0xad] := by rfl

set_option maxHeartbeats 8000000 in
/-- Counterexample for C2: at round count 2, `n = 7`, the fixed 32-byte seed,
`ShuffleList` applied to `[0..7)` puts `6` at position `1`, while
`ShuffledIndex(1, 7, seed)` is `5`: the list shuffle realizes the inverse
permutation of the per-index shuffle, not the same permutation. -/
theorem shuffleList_vs_shuffledIndex_counterexample :
    ShuffleList 2 (List.range 7) cSeed = Except.ok [4, 6, 2, 3, 0, 1, 5] ∧
    ShuffledIndex 2 1 7 cSeed = Except.ok 5 ∧
    ([4, 6, 2, 3, 0, 1, 5] : List Nat).getD 1 0 ≠ 5 := ⟨by rfl, by rfl, by decide⟩

/-! ### C2: the mirrored sweeps realize the per-round involution, position-wise -/

lemma getD_set_self (l : List Nat) (i v : Nat) (h : i < l.length) :
    (l.set i v).getD i 0 = v := by
  rw [List.getD_eq_getElem _ _ (by simpa using h), List.getElem_set_self]

lemma getD_set_ne (l : List Nat) (i v x : Nat) (hx : x ≠ i) :
    (l.set i v).getD x 0 = l.getD x 0 := by
  by_cases h : x < l.length
  · rw [List.getD_eq_getElem _ _ (by simpa using h), List.getD_eq_getElem _ _ h,
      List.getElem_set_ne]
    omega
  · rw [List.getD_eq_default _ _ (by simp; omega), List.getD_eq_default _ _ (by omega)]

lemma length_listSwap (arr : List Nat) (i j : Nat) :
    (listSwap arr i j).length = arr.length := by
  simp [listSwap]

lemma listSwap_getD_fst (arr : List Nat) (i j : Nat) (hi : i < arr.length) (hij : i ≠ j) :
    (listSwap arr i j).getD i 0 = arr.getD j 0 := by
  unfold listSwap
  rw [getD_set_ne _ _ _ _ hij, getD_set_self _ _ _ hi]

lemma listSwap_getD_snd (arr : List Nat) (i j : Nat) (hj : j < arr.length) :
    (listSwap arr i j).getD j 0 = arr.getD i 0 := by
  unfold listSwap
  rw [getD_set_self]
  simpa using hj

lemma listSwap_getD_other (arr : List Nat) (i j x : Nat) (hxi : x ≠ i) (hxj : x ≠ j) :
    (listSwap arr i j).getD x 0 = arr.getD x 0 := by
  unfold listSwap
  rw [getD_set_ne _ _ _ _ hxj, getD_set_ne _ _ _ _ hxi]

lemma length_condSwap (seed : List Nat) (r : Nat) (arr : List Nat) (p : Nat × Nat) :
    (condSwap seed r arr p).length = arr.length := by
  unfold condSwap
  split
  · exact length_listSwap arr p.1 p.2
  · rfl

lemma condSwap_getD_other (seed : List Nat) (r : Nat) (arr : List Nat) (p : Nat × Nat)
    (x : Nat) (hx1 : x ≠ p.1) (hx2 : x ≠ p.2) :
    (condSwap seed r arr p).getD x 0 = arr.getD x 0 := by
  unfold condSwap
  split
  · exact listSwap_getD_other arr p.1 p.2 x hx1 hx2
  · rfl

lemma condSwap_getD_fst (seed : List Nat) (r : Nat) (arr : List Nat) (i j : Nat)
    (hi : i < arr.length) (hij : i ≠ j) :
    (condSwap seed r arr (i, j)).getD i 0
      = arr.getD (if bitAt seed r j == 1 then j else i) 0 := by
  unfold condSwap
  split
  · exact listSwap_getD_fst arr i j hi hij
  · rfl

lemma condSwap_getD_snd (seed : List Nat) (r : Nat) (arr : List Nat) (i j : Nat)
    (hj : j < arr.length) (hij : i ≠ j) :
    (condSwap seed r arr (i, j)).getD j 0
      = arr.getD (if bitAt seed r j == 1 then i else j) 0 := by
  unfold condSwap
  split
  · exact listSwap_getD_snd arr i j hj
  · rfl

lemma length_simpleSweep (seed : List Nat) (r : Nat) :
    ∀ (ps : List (Nat × Nat)) (arr : List Nat),
      (simpleSweep seed r ps arr).length = arr.length := by
  intro ps
  induction ps with
  | nil => intro arr; rfl
  | cons p t ih =>
    intro arr
    show (simpleSweep seed r t (condSwap seed r arr p)).length = arr.length
    rw [ih, length_condSwap]

lemma simpleSweep_getD_notMem (seed : List Nat) (r : Nat) :
    ∀ (ps : List (Nat × Nat)) (arr : List Nat) (x : Nat),
      (∀ p ∈ ps, x ≠ p.1 ∧ x ≠ p.2) →
      (simpleSweep seed r ps arr).getD x 0 = arr.getD x 0 := by
  intro ps
  induction ps with
  | nil => intro arr x _; rfl
  | cons p t ih =>
    intro arr x hx
    show (simpleSweep seed r t (condSwap seed r arr p)).getD x 0 = arr.getD x 0
    rw [ih _ x (fun q hq => hx q (List.mem_cons_of_mem p hq))]
    exact condSwap_getD_other seed r arr p x
      (hx p (List.mem_cons_self p t)).1 (hx p (List.mem_cons_self p t)).2

lemma simpleSweep_getD_pair (seed : List Nat) (r : Nat) (ps1 ps2 : List (Nat × Nat))
    (i j : Nat) (arr : List Nat)
    (hi : i < arr.length) (hj : j < arr.length) (hij : i ≠ j)
    (h1 : ∀ p ∈ ps1, (i ≠ p.1 ∧ i ≠ p.2) ∧ (j ≠ p.1 ∧ j ≠ p.2))
    (h2 : ∀ p ∈ ps2, (i ≠ p.1 ∧ i ≠ p.2) ∧ (j ≠ p.1 ∧ j ≠ p.2)) :
    (simpleSweep seed r (ps1 ++ (i, j) :: ps2) arr).getD i 0
        = arr.getD (if bitAt seed r j == 1 then j else i) 0 ∧
    (simpleSweep seed r (ps1 ++ (i, j) :: ps2) arr).getD j 0
        = arr.getD (if bitAt seed r j == 1 then i else j) 0 := by
  have hsplit : simpleSweep seed r (ps1 ++ (i, j) :: ps2) arr
      = simpleSweep seed r ps2 (condSwap seed r (simpleSweep seed r ps1 arr) (i, j)) := by
    simp [simpleSweep, List.foldl_append]
  have hlen1 : (simpleSweep seed r ps1 arr).length = arr.length :=
    length_simpleSweep seed r ps1 arr
  have hmid1 : ∀ x, x = i ∨ x = j →
      (simpleSweep seed r ps1 arr).getD x 0 = arr.getD x 0 := by
    intro x hx
    refine simpleSweep_getD_notMem seed r ps1 arr x (fun p hp => ?_)
    rcases hx with rfl | rfl
    · exact (h1 p hp).1
    · exact (h1 p hp).2
  constructor
  · rw [hsplit, simpleSweep_getD_notMem seed r ps2 _ i (fun p hp => (h2 p hp).1),
      condSwap_getD_fst seed r _ i j (by omega) hij]
    split
    · exact hmid1 j (Or.inr rfl)
    · exact hmid1 i (Or.inl rfl)
  · rw [hsplit, simpleSweep_getD_notMem seed r ps2 _ j (fun p hp => (h2 p hp).2),
      condSwap_getD_snd seed r _ i j (by omega) hij]
    split
    · exact hmid1 i (Or.inl rfl)
    · exact hmid1 j (Or.inr rfl)

lemma sweepPairs_succ (iStart jStart c : Nat) :
    sweepPairs iStart jStart (c + 1) =
      (iStart, jStart) :: sweepPairs (iStart + 1) (jStart - 1) c := by
  simp only [sweepPairs, List.range_succ_eq_map, List.map_cons, List.map_map]
  congr 1
  refine List.map_congr_left (fun a _ => ?_)
  simp only [Function.comp_apply, Prod.mk.injEq]
  exact ⟨by omega, by omega⟩

lemma mem_sweepPairs (iStart jStart cnt : Nat) (p : Nat × Nat) :
    p ∈ sweepPairs iStart jStart cnt ↔
      ∃ k, k < cnt ∧ p = (iStart + k, jStart - k) := by
  simp only [sweepPairs, List.mem_map, List.mem_range]
  constructor
  · rintro ⟨k, hk, rfl⟩
    exact ⟨k, hk, rfl⟩
  · rintro ⟨k, hk, rfl⟩
    exact ⟨k, hk, rfl⟩

lemma sweepPairs_split : ∀ (k iStart jStart cnt : Nat), k < cnt →
    sweepPairs iStart jStart cnt =
      sweepPairs iStart jStart k ++ (iStart + k, jStart - k) ::
        sweepPairs (iStart + k + 1) (jStart - k - 1) (cnt - k - 1) := by
  intro k
  induction k with
  | zero =>
    intro iStart jStart cnt hk
    have hc : cnt = (cnt - 1) + 1 := by omega
    rw [hc, sweepPairs_succ]
    simp [sweepPairs]
  | succ m ih =>
    intro iStart jStart cnt hk
    have hc : cnt = (cnt - 1) + 1 := by omega
    rw [hc, sweepPairs_succ]
    rw [ih (iStart + 1) (jStart - 1) (cnt - 1) (by omega)]
    have e1 : iStart + 1 + m = iStart + (m + 1) := by omega
    have e2 : jStart - 1 - m = jStart - (m + 1) := by omega
    have e5 : cnt - 1 - m - 1 = cnt - 1 + 1 - (m + 1) - 1 := by omega
    rw [← List.cons_append, ← sweepPairs_succ, e1, e2, e5]

lemma length_ite_listSwap (c : Prop) [Decidable c] (arr : List Nat) (i j : Nat) :
    (if c then listSwap arr i j else arr).length = arr.length := by
  split
  · exact length_listSwap arr i j
  · rfl

lemma swapOrNot_char (seed : List Nat) (r : Nat) (st : SweepState) (i j : Nat)
    (hok : okFor seed r st j ∨ okFor seed r st (j + 1)) :
    swapOrNot seed r st i j =
      { arr := condSwap seed r st.arr (i, j),
        byteV := (sourceHash seed r (j >>> 8)).getD (j % 256 / 8) 0,
        source := sourceHash seed r (j >>> 8) } := by
  have hdiv : ∀ m : Nat, m >>> 8 = m / 256 := by
    intro m
    rw [Nat.shiftRight_eq_div_pow]
  have hsource : (if j % 256 == 255 then sourceHash seed r (j >>> 8) else st.source)
      = sourceHash seed r (j >>> 8) := by
    by_cases hb : j % 256 = 255
    · simp [hb]
    · have hbeq : (j % 256 == 255) = false := by simp [hb]
      rw [hbeq, if_neg (by simp)]
      rcases hok with ⟨hs, _⟩ | ⟨hs, _⟩
      · exact hs
      · rw [hs, hdiv, hdiv]
        congr 1
        omega
  have hbyte : (if j % 8 == 7 then (sourceHash seed r (j >>> 8)).getD (j % 256 / 8) 0
        else st.byteV)
      = (sourceHash seed r (j >>> 8)).getD (j % 256 / 8) 0 := by
    by_cases hb : j % 8 = 7
    · simp [hb]
    · have hbeq : (j % 8 == 7) = false := by simp [hb]
      rw [hbeq, if_neg (by simp)]
      rcases hok with ⟨_, hv⟩ | ⟨_, hv⟩
      · exact hv
      · rw [hv]
        have h256 : (j + 1) % 256 / 8 = j % 256 / 8 := by omega
        have hhi : (j + 1) >>> 8 = j >>> 8 := by
          rw [hdiv, hdiv]
          omega
        rw [h256, hhi]
  simp only [swapOrNot]
  rw [hsource, hbyte]
  simp only [condSwap, bitAt]

lemma swapOrNot_arr_length (seed : List Nat) (r : Nat) (st : SweepState) (i j : Nat) :
    (swapOrNot seed r st i j).arr.length = st.arr.length := by
  simp only [swapOrNot]
  exact length_ite_listSwap _ _ _ _

lemma runSweep_arr_length (seed : List Nat) (r : Nat) :
    ∀ (ps : List (Nat × Nat)) (st : SweepState),
      (runSweep seed r ps st).arr.length = st.arr.length := by
  intro ps
  induction ps with
  | nil => intro st; rfl
  | cons p t ih =>
    intro st
    show (runSweep seed r t (swapOrNot seed r st p.1 p.2)).arr.length = st.arr.length
    rw [ih, swapOrNot_arr_length]

lemma runSweep_eq_simple (seed : List Nat) (r : Nat) :
    ∀ (cnt iStart jStart : Nat) (st : SweepState),
      cnt ≤ jStart + 1 →
      (okFor seed r st jStart ∨ okFor seed r st (jStart + 1)) →
      (runSweep seed r (sweepPairs iStart jStart cnt) st).arr
        = simpleSweep seed r (sweepPairs iStart jStart cnt) st.arr := by
  intro cnt
  induction cnt with
  | zero => intro iStart jStart st _ _; rfl
  | succ c ih =>
    intro iStart jStart st hcnt hok
    rw [sweepPairs_succ]
    show (runSweep seed r (sweepPairs (iStart + 1) (jStart - 1) c)
        (swapOrNot seed r st iStart jStart)).arr = _
    rw [swapOrNot_char seed r st iStart jStart hok]
    rcases Nat.eq_zero_or_pos jStart with hj0 | hjpos
    · have hc0 : c = 0 := by omega
      subst hc0
      rfl
    · have hok' : okFor seed r
          { arr := condSwap seed r st.arr (iStart, jStart),
            byteV := (sourceHash seed r (jStart >>> 8)).getD (jStart % 256 / 8) 0,
            source := sourceHash seed r (jStart >>> 8) } ((jStart - 1) + 1) := by
        have hj : jStart - 1 + 1 = jStart := by omega
        rw [hj]
        exact ⟨rfl, rfl⟩
      rw [ih (iStart + 1) (jStart - 1) _ (by omega) (Or.inr hok')]
      rfl

lemma simpleSweep_append (seed : List Nat) (r : Nat) (ps1 ps2 : List (Nat × Nat))
    (arr : List Nat) :
    simpleSweep seed r (ps1 ++ ps2) arr = simpleSweep seed r ps2 (simpleSweep seed r ps1 arr) := by
  simp [simpleSweep, List.foldl_append]

lemma shuffleListRound_eq_simple (seed : List Nat) (n r : Nat) (arr : List Nat) :
    shuffleListRound seed n arr r =
      simpleSweep seed r
        (sweepPairs 0 (pivotFor seed r n) ((pivotFor seed r n + 1) / 2) ++
         sweepPairs (pivotFor seed r n + 1) (n - 1)
           ((pivotFor seed r n + n + 1) / 2 - (pivotFor seed r n + 1))) arr := by
  simp only [shuffleListRound]
  rw [runSweep_eq_simple seed r _ _ _ _ (by omega) (Or.inl ⟨rfl, rfl⟩)]
  rw [runSweep_eq_simple seed r _ _ _ _ (by omega) (Or.inl ⟨rfl, rfl⟩)]
  rw [simpleSweep_append]

lemma seg1_form (p a cnt : Nat) (hcnt : a + cnt ≤ (p + 1) / 2) :
    ∀ q ∈ sweepPairs a (p - a) cnt,
      q.2 = p - q.1 ∧ a ≤ q.1 ∧ q.1 < a + cnt ∧ 2 * q.1 < p := by
  intro q hq
  rcases (mem_sweepPairs _ _ _ q).1 hq with ⟨k, hk, rfl⟩
  refine ⟨?_, ?_, ?_, ?_⟩ <;> simp <;> omega

lemma seg2_form (p n a cnt : Nat) (ha : p + 1 ≤ a) (hcnt : a + cnt ≤ (p + n + 1) / 2) :
    ∀ q ∈ sweepPairs a (p + n - a) cnt,
      q.2 = p + n - q.1 ∧ a ≤ q.1 ∧ q.1 < a + cnt ∧ p + 1 ≤ q.1 ∧ 2 * q.1 < p + n := by
  intro q hq
  rcases (mem_sweepPairs _ _ _ q).1 hq with ⟨k, hk, rfl⟩
  refine ⟨?_, ?_, ?_, ?_, ?_⟩ <;> simp <;> omega

lemma shuffleListRound_getD (seed : List Nat) (n r : Nat) (arr : List Nat)
    (hlen : arr.length = n) (x : Nat) (hx : x < n) :
    (shuffleListRound seed n arr r).getD x 0 = arr.getD (swapOrNotIndex seed n r x) 0 := by
  have hn : 0 < n := Nat.lt_of_le_of_lt (Nat.zero_le x) hx
  have hp : pivotFor seed r n < n := pivotFor_lt seed r n hn
  rw [shuffleListRound_eq_simple seed n r arr, swapOrNotIndex_eq]
  set p := pivotFor seed r n with hpdef
  have hps2 : sweepPairs (p + 1) (n - 1) ((p + n + 1) / 2 - (p + 1))
      = sweepPairs (p + 1) (p + n - (p + 1)) ((p + n + 1) / 2 - (p + 1)) := by
    congr 1
    omega
  rcases le_or_lt x p with hxp | hxp
  · -- x is in the segment [0, p]
    have hflip : (p + n - x) % n = p - x := by
      have e : p + n - x = (p - x) + n := by omega
      rw [e, Nat.add_mod_right, Nat.mod_eq_of_lt (by omega)]
    rw [hflip]
    rcases Nat.lt_trichotomy (2 * x) p with h2x | h2x | h2x
    · -- x < p - x : x is the first component of its pair
      have hmax : max x (p - x) = p - x := by omega
      rw [hmax]
      have hsplit : sweepPairs 0 p ((p + 1) / 2) =
          sweepPairs 0 p x ++ (0 + x, p - x) ::
            sweepPairs (0 + x + 1) (p - x - 1) ((p + 1) / 2 - x - 1) :=
        sweepPairs_split x 0 p ((p + 1) / 2) (by omega)
      rw [hsplit, List.append_assoc, List.cons_append]
      simp only [Nat.zero_add]
      have key := simpleSweep_getD_pair seed r (sweepPairs 0 p x)
        (sweepPairs (x + 1) (p - x - 1) ((p + 1) / 2 - x - 1) ++
          sweepPairs (p + 1) (n - 1) ((p + n + 1) / 2 - (p + 1)))
        x (p - x) arr (by omega) (by omega) (by omega)
        ?_ ?_
      · exact key.1
      · intro q hq
        obtain ⟨e1, e2, e3, e4⟩ := seg1_form p 0 x (by omega) q (by simpa using hq)
        exact ⟨⟨by omega, by omega⟩, ⟨by omega, by omega⟩⟩
      · intro q hq
        rcases List.mem_append.1 hq with hq1 | hq2
        · have e0 : p - x - 1 = p - (x + 1) := by omega
          rw [e0] at hq1
          obtain ⟨e1, e2, e3, e4⟩ := seg1_form p (x + 1) ((p + 1) / 2 - x - 1) (by omega) q hq1
          exact ⟨⟨by omega, by omega⟩, ⟨by omega, by omega⟩⟩
        · rw [hps2] at hq2
          obtain ⟨e1, e2, e3, e4, e5⟩ := seg2_form p n (p + 1)
            ((p + n + 1) / 2 - (p + 1)) (by omega) (by omega) q hq2
          exact ⟨⟨by omega, by omega⟩, ⟨by omega, by omega⟩⟩
    · -- 2x = p : fixed point, x is in no pair
      have hpx : p - x = x := by omega
      rw [hpx, ite_self]
      apply simpleSweep_getD_notMem
      intro q hq
      rcases List.mem_append.1 hq with hq1 | hq2
      · obtain ⟨e1, e2, e3, e4⟩ := seg1_form p 0 ((p + 1) / 2) (by omega) q (by simpa using hq1)
        exact ⟨by omega, by omega⟩
      · rw [hps2] at hq2
        obtain ⟨e1, e2, e3, e4, e5⟩ := seg2_form p n (p + 1)
          ((p + n + 1) / 2 - (p + 1)) (by omega) (by omega) q hq2
        exact ⟨by omega, by omega⟩
    · -- p - x < x : x is the second component of its pair
      have hmax : max x (p - x) = x := by omega
      rw [hmax]
      have hsplit : sweepPairs 0 p ((p + 1) / 2) =
          sweepPairs 0 p (p - x) ++ (0 + (p - x), p - (p - x)) ::
            sweepPairs (0 + (p - x) + 1) (p - (p - x) - 1) ((p + 1) / 2 - (p - x) - 1) :=
        sweepPairs_split (p - x) 0 p ((p + 1) / 2) (by omega)
      have epx : p - (p - x) = x := by omega
      rw [epx] at hsplit
      rw [hsplit, List.append_assoc, List.cons_append]
      simp only [Nat.zero_add]
      have key := simpleSweep_getD_pair seed r (sweepPairs 0 p (p - x))
        (sweepPairs (p - x + 1) (x - 1) ((p + 1) / 2 - (p - x) - 1) ++
          sweepPairs (p + 1) (n - 1) ((p + n + 1) / 2 - (p + 1)))
        (p - x) x arr (by omega) (by omega) (by omega)
        ?_ ?_
      · exact key.2
      · intro q hq
        obtain ⟨e1, e2, e3, e4⟩ := seg1_form p 0 (p - x) (by omega) q (by simpa using hq)
        exact ⟨⟨by omega, by omega⟩, ⟨by omega, by omega⟩⟩
      · intro q hq
        rcases List.mem_append.1 hq with hq1 | hq2
        · have e0 : x - 1 = p - (p - x + 1) := by omega
          rw [e0] at hq1
          obtain ⟨e1, e2, e3, e4⟩ := seg1_form p (p - x + 1) ((p + 1) / 2 - (p - x) - 1)
            (by omega) q hq1
          exact ⟨⟨by omega, by omega⟩, ⟨by omega, by omega⟩⟩
        · rw [hps2] at hq2
          obtain ⟨e1, e2, e3, e4, e5⟩ := seg2_form p n (p + 1)
            ((p + n + 1) / 2 - (p + 1)) (by omega) (by omega) q hq2
          exact ⟨⟨by omega, by omega⟩, ⟨by omega, by omega⟩⟩
  · -- x is in the segment (p, n)
    have hflip : (p + n - x) % n = p + n - x := Nat.mod_eq_of_lt (by omega)
    rw [hflip]
    rcases Nat.lt_trichotomy (2 * x) (p + n) with h2x | h2x | h2x
    · -- x < p + n - x : x is the first component of its pair
      have hmax : max x (p + n - x) = p + n - x := by omega
      rw [hmax]
      have hk : x - (p + 1) < (p + n + 1) / 2 - (p + 1) := by omega
      have hsplit : sweepPairs (p + 1) (n - 1) ((p + n + 1) / 2 - (p + 1)) =
          sweepPairs (p + 1) (n - 1) (x - (p + 1)) ++
            (p + 1 + (x - (p + 1)), n - 1 - (x - (p + 1))) ::
            sweepPairs (p + 1 + (x - (p + 1)) + 1) (n - 1 - (x - (p + 1)) - 1)
              ((p + n + 1) / 2 - (p + 1) - (x - (p + 1)) - 1) :=
        sweepPairs_split (x - (p + 1)) (p + 1) (n - 1) ((p + n + 1) / 2 - (p + 1)) hk
      have e1 : p + 1 + (x - (p + 1)) = x := by omega
      have e2 : n - 1 - (x - (p + 1)) = p + n - x := by omega
      rw [e1, e2] at hsplit
      rw [hsplit, ← List.append_assoc]
      have key := simpleSweep_getD_pair seed r
        (sweepPairs 0 p ((p + 1) / 2) ++ sweepPairs (p + 1) (n - 1) (x - (p + 1)))
        (sweepPairs (x + 1) (p + n - x - 1) ((p + n + 1) / 2 - (p + 1) - (x - (p + 1)) - 1))
        x (p + n - x) arr (by omega) (by omega) (by omega)
        ?_ ?_
      · exact key.1
      · intro q hq
        rcases List.mem_append.1 hq with hq1 | hq2
        · obtain ⟨e1, e2, e3, e4⟩ := seg1_form p 0 ((p + 1) / 2) (by omega) q (by simpa using hq1)
          exact ⟨⟨by omega, by omega⟩, ⟨by omega, by omega⟩⟩
        · have e0 : n - 1 = p + n - (p + 1) := by omega
          rw [e0] at hq2
          obtain ⟨e1, e2, e3, e4, e5⟩ := seg2_form p n (p + 1) (x - (p + 1))
            (by omega) (by omega) q hq2
          exact ⟨⟨by omega, by omega⟩, ⟨by omega, by omega⟩⟩
      · intro q hq
        have e0 : p + n - x - 1 = p + n - (x + 1) := by omega
        rw [e0] at hq
        obtain ⟨e1, e2, e3, e4, e5⟩ := seg2_form p n (x + 1)
          ((p + n + 1) / 2 - (p + 1) - (x - (p + 1)) - 1) (by omega) (by omega) q hq
        exact ⟨⟨by omega, by omega⟩, ⟨by omega, by omega⟩⟩
    · -- 2x = p + n : fixed point, x is in no pair
      have hpx : p + n - x = x := by omega
      rw [hpx, ite_self]
      apply simpleSweep_getD_notMem
      intro q hq
      rcases List.mem_append.1 hq with hq1 | hq2
      · obtain ⟨e1, e2, e3, e4⟩ := seg1_form p 0 ((p + 1) / 2) (by omega) q (by simpa using hq1)
        exact ⟨by omega, by omega⟩
      · rw [hps2] at hq2
        obtain ⟨e1, e2, e3, e4, e5⟩ := seg2_form p n (p + 1)
          ((p + n + 1) / 2 - (p + 1)) (by omega) (by omega) q hq2
        exact ⟨by omega, by omega⟩
    · -- p + n - x < x : x is the second component of its pair
      have hmax : max x (p + n - x) = x := by omega
      rw [hmax]
      have hk : p + n - x - (p + 1) < (p + n + 1) / 2 - (p + 1) := by omega
      have hsplit : sweepPairs (p + 1) (n - 1) ((p + n + 1) / 2 - (p + 1)) =
          sweepPairs (p + 1) (n - 1) (p + n - x - (p + 1)) ++
            (p + 1 + (p + n - x - (p + 1)), n - 1 - (p + n - x - (p + 1))) ::
            sweepPairs (p + 1 + (p + n - x - (p + 1)) + 1) (n - 1 - (p + n - x - (p + 1)) - 1)
              ((p + n + 1) / 2 - (p + 1) - (p + n - x - (p + 1)) - 1) :=
        sweepPairs_split (p + n - x - (p + 1)) (p + 1) (n - 1) ((p + n + 1) / 2 - (p + 1)) hk
      have e1 : p + 1 + (p + n - x - (p + 1)) = p + n - x := by omega
      have e2 : n - 1 - (p + n - x - (p + 1)) = x := by omega
      rw [e1, e2] at hsplit
      rw [hsplit, ← List.append_assoc]
      have key := simpleSweep_getD_pair seed r
        (sweepPairs 0 p ((p + 1) / 2) ++ sweepPairs (p + 1) (n - 1) (p + n - x - (p + 1)))
        (sweepPairs (p + n - x + 1) (x - 1) ((p + n + 1) / 2 - (p + 1) - (p + n - x - (p + 1)) - 1))
        (p + n - x) x arr (by omega) (by omega) (by omega)
        ?_ ?_
      · exact key.2
      · intro q hq
        rcases List.mem_append.1 hq with hq1 | hq2
        · obtain ⟨e1, e2, e3, e4⟩ := seg1_form p 0 ((p + 1) / 2) (by omega) q (by simpa using hq1)
          exact ⟨⟨by omega, by omega⟩, ⟨by omega, by omega⟩⟩
        · have e0 : n - 1 = p + n - (p + 1) := by omega
          rw [e0] at hq2
          obtain ⟨e1, e2, e3, e4, e5⟩ := seg2_form p n (p + 1) (p + n - x - (p + 1))
            (by omega) (by omega) q hq2
          exact ⟨⟨by omega, by omega⟩, ⟨by omega, by omega⟩⟩
      · intro q hq
        have e0 : x - 1 = p + n - (p + n - x + 1) := by omega
        rw [e0] at hq
        obtain ⟨e1, e2, e3, e4, e5⟩ := seg2_form p n (p + n - x + 1)
          ((p + n + 1) / 2 - (p + 1) - (p + n - x - (p + 1)) - 1) (by omega) (by omega) q hq
        exact ⟨⟨by omega, by omega⟩, ⟨by omega, by omega⟩⟩

lemma shuffleListRound_length (seed : List Nat) (n r : Nat) (arr : List Nat) :
    (shuffleListRound seed n arr r).length = arr.length := by
  rw [shuffleListRound_eq_simple, length_simpleSweep]

lemma foldr_swapOrNotIndex_lt (seed : List Nat) (n : Nat) (hn : 0 < n) :
    ∀ (l : List Nat) (x : Nat), x < n →
      l.foldr (fun r y => swapOrNotIndex seed n r y) x < n := by
  intro l
  induction l with
  | nil => intro x hx; exact hx
  | cons a t ih =>
    intro x hx
    exact swapOrNotIndex_lt seed n a _ hn (ih x hx)

lemma foldl_shuffleListRound_getD (seed : List Nat) (n : Nat) :
    ∀ (seq : List Nat) (arr : List Nat), arr.length = n → ∀ x, x < n →
      (seq.foldl (shuffleListRound seed n) arr).getD x 0
        = arr.getD (seq.foldr (fun r y => swapOrNotIndex seed n r y) x) 0 := by
  intro seq
  induction seq with
  | nil => intro arr _ x _; rfl
  | cons r rest ih =>
    intro arr hlen x hx
    have hn : 0 < n := Nat.lt_of_le_of_lt (Nat.zero_le x) hx
    have hlen' : (shuffleListRound seed n arr r).length = n := by
      rw [shuffleListRound_length, hlen]
    show ((rest.foldl (shuffleListRound seed n) (shuffleListRound seed n arr r))).getD x 0 = _
    rw [ih (shuffleListRound seed n arr r) hlen' x hx]
    exact shuffleListRound_getD seed n r arr hlen _
      (foldr_swapOrNotIndex_lt seed n hn rest x hx)

lemma getD_range (n x : Nat) (h : x < n) : (List.range n).getD x 0 = x := by
  rw [List.getD_eq_getElem _ _ (by simpa using h)]
  simp

/-- C2 as amended: for every seed, every `n` with `1 < n <= 2^40`, and every
configured round count that is zero or not a nonzero multiple of 256,
`ShuffleList` applied to the identity list realizes the inverse of the
per-index shuffle: `ShuffleList([0..n), s)[i] = UnShuffledIndex(i, n, s)` for
every position `i < n` (equivalently, element `i` ends at position
`ShuffledIndex(i, n, s)`), the mirrored double-pointer sweep being
bit-identical to the per-index computation of the inverse permutation. -/
theorem shuffleList_matches_unshuffledIndex
    (roundCount n x : Nat) (s : List Nat)
    (hrc : roundCount = 0 ∨ roundCount % 256 ≠ 0)
    (hn1 : 1 < n) (hn : n ≤ 2 ^ 40) (hx : x < n) :
    ∃ out, ShuffleList roundCount (List.range n) s = Except.ok out ∧
      UnShuffledIndex roundCount x n s = Except.ok (out.getD x 0) := by
  have hn0 : 0 < n := by omega
  have hlen : (List.range n).length = n := List.length_range n
  have hlen1 : ¬ (List.range n).length ≤ 1 := by
    rw [hlen]
    omega
  have hsize : ¬ (List.range n).length > maxShuffleListSize := by
    rw [hlen]
    simp only [maxShuffleListSize]
    omega
  rcases hrc with hrc | hrc
  · subst hrc
    refine ⟨List.range n, ?_, ?_⟩
    · simp only [ShuffleList, innerShuffleList, if_neg hlen1, if_neg hsize]
      rw [if_pos (by norm_num)]
    · rw [getD_range n x hx]
      rfl
  · have hrc0 : roundCount ≠ 0 := fun h => hrc (by simp [h])
    have hxn : ¬ x ≥ n := Nat.not_le_of_lt hx
    have hnmax : ¬ n > maxShuffleListSize := by
      simp only [maxShuffleListSize]
      omega
    have heff : effRounds roundCount = roundCount % 256 := by
      simp only [effRounds]
      rw [if_neg (by simpa using hrc)]
    refine ⟨(List.range (roundCount % 256)).foldl
        (shuffleListRound s (List.range n).length) (List.range n), ?_, ?_⟩
    · simp only [ShuffleList, innerShuffleList, if_neg hlen1, if_neg hsize, if_neg hrc,
        if_true]
    · simp only [UnShuffledIndex, innerShuffledIndex, if_neg hrc0, if_neg hxn,
        if_neg hnmax, heff]
      rw [hlen, foldl_shuffleListRound_getD s n _ (List.range n) (List.length_range n) x hx]
      rw [getD_range n _ (foldr_swapOrNotIndex_lt s n hn0 _ x hx)]
      rw [if_neg Bool.false_ne_true, List.foldl_reverse]

/-- Witness for C2 as amended: round count 90, `n = 10`, position 3. -/
theorem shuffleList_matches_unshuffledIndex_witness :
    ∃ out, ShuffleList 90 (List.range 10) cSeed = Except.ok out ∧
      UnShuffledIndex 90 3 10 cSeed = Except.ok (out.getD 3 0) :=
  shuffleList_matches_unshuffledIndex 90 10 3 cSeed (Or.inr (by decide))
    (by decide) (by decide) (by decide)

/-! ### C3: the attestation store's monotonic-latest policy -/

lemma updateLatestSequence_dominates (pk : Nat) :
    ∀ (atts : List Attestation) (store : Nat → Option Attestation) (r0 : Attestation),
      store pk = some r0 →
      ∃ r, updateLatestSequence pk atts store pk = some r ∧
        r0.slot ≤ r.slot ∧ (r = r0 ∨ r ∈ atts) ∧ ∀ a ∈ atts, a.slot ≤ r.slot := by
  intro atts
  induction atts with
  | nil =>
    intro store r0 h0
    exact ⟨r0, h0, le_refl _, Or.inl rfl, by simp⟩
  | cons a rest ih =>
    intro store r0 h0
    have hstep : updateLatestSequence pk (a :: rest) store
        = updateLatestSequence pk rest (updateLatestAttestation store pk a) := rfl
    rcases le_or_lt r0.slot a.slot with hle | hgt
    · have hnew : (updateLatestAttestation store pk a) pk = some a := by
        simp [updateLatestAttestation, h0, hle]
      obtain ⟨r, hr, hslot, hmem, hdom⟩ := ih (updateLatestAttestation store pk a) a hnew
      refine ⟨r, by rw [hstep]; exact hr, le_trans hle hslot, ?_, ?_⟩
      · rcases hmem with h | hm
        · exact Or.inr (by rw [h]; exact List.mem_cons_self a rest)
        · exact Or.inr (List.mem_cons_of_mem a hm)
      · intro b hb
        rcases List.mem_cons.1 hb with rfl | hb'
        · exact hslot
        · exact hdom b hb'
    · have hkeep : (updateLatestAttestation store pk a) pk = some r0 := by
        simp [updateLatestAttestation, h0]
        intro hc
        omega
      obtain ⟨r, hr, hslot, hmem, hdom⟩ := ih (updateLatestAttestation store pk a) r0 hkeep
      refine ⟨r, by rw [hstep]; exact hr, hslot, ?_, ?_⟩
      · rcases hmem with h | hm
        · exact Or.inl h
        · exact Or.inr (List.mem_cons_of_mem a hm)
      intro b hb
      rcases List.mem_cons.1 hb with rfl | hb'
      · omega
      · exact hdom b hb'

/-- C3: Attestation monotonic-latest policy (modelled from the spec, the
implementation not being under `src/`).  The stored record of a validator is
overwritten iff the incoming attestation's slot is at least the stored one
(and always when nothing is stored); an attestation with a lower slot than the
stored one leaves the whole store unchanged; and after any sequence of updates
the stored record is one of the attestations seen, with the highest slot. -/
theorem updateLatestAttestation_monotonic
    (store : Nat → Option Attestation) (pk : Nat) (att cur attLow first : Attestation)
    (atts : List Attestation)
    (hcur : store pk = some cur) (hlow : attLow.slot < cur.slot) :
    ((updateLatestAttestation store pk att) pk = some att ↔ cur.slot ≤ att.slot) ∧
    ((updateLatestAttestation emptyAttStore pk att) pk = some att) ∧
    (∀ q, updateLatestAttestation store pk attLow q = store q) ∧
    (∃ r, updateLatestSequence pk (first :: atts) emptyAttStore pk = some r ∧
      r ∈ first :: atts ∧ ∀ a ∈ first :: atts, a.slot ≤ r.slot) := by
  refine ⟨?_, ?_, ?_, ?_⟩
  · constructor
    · intro hup
      by_contra hgt
      have : (updateLatestAttestation store pk att) pk = some cur := by
        simp [updateLatestAttestation, hcur]
        intro hc
        omega
      rw [this] at hup
      have : cur = att := by injection hup
      subst this
      omega
    · intro hle
      simp [updateLatestAttestation, hcur, hle]
  · simp [updateLatestAttestation, emptyAttStore]
  · intro q
    by_cases hq : q = pk
    · subst hq
      simp [updateLatestAttestation, hcur]
      intro hc
      omega
    · simp [updateLatestAttestation, hq]
  · have hfirst : (updateLatestAttestation emptyAttStore pk first) pk = some first := by
      simp [updateLatestAttestation, emptyAttStore]
    obtain ⟨r, hr, hslot, hmem, hdom⟩ :=
      updateLatestSequence_dominates pk atts (updateLatestAttestation emptyAttStore pk first)
        first hfirst
    refine ⟨r, hr, ?_, ?_⟩
    · rcases hmem with rfl | hm
      · exact List.mem_cons_self _ _
      · exact List.mem_cons_of_mem _ hm
    · intro a ha
      rcases List.mem_cons.1 ha with rfl | ha'
      · exact hslot
      · exact hdom a ha'

/-- Witness for C3: a concrete store holding a slot-5 attestation for
validator 2, an incoming slot-7 attestation, a lower slot-3 attestation, and
the sequence with slots 1, 4, 2. -/
theorem updateLatestAttestation_monotonic_witness :
    ((updateLatestAttestation (fun q => if q = 2 then some ⟨5, 0, 10⟩ else none) 2
        ⟨7, 1, 11⟩) 2 = some ⟨7, 1, 11⟩ ↔ (5 : Nat) ≤ 7) ∧
    ((updateLatestAttestation emptyAttStore 2 ⟨7, 1, 11⟩) 2 = some ⟨7, 1, 11⟩) ∧
    (∀ q, updateLatestAttestation (fun q => if q = 2 then some ⟨5, 0, 10⟩ else none) 2
        ⟨3, 1, 12⟩ q = (fun q => if q = 2 then some (⟨5, 0, 10⟩ : Attestation) else none) q) ∧
    (∃ r, updateLatestSequence 2 (⟨1, 0, 20⟩ :: [⟨4, 0, 21⟩, ⟨2, 0, 22⟩]) emptyAttStore 2
        = some r ∧ r ∈ (⟨1, 0, 20⟩ : Attestation) :: [⟨4, 0, 21⟩, ⟨2, 0, 22⟩] ∧
        ∀ a ∈ (⟨1, 0, 20⟩ : Attestation) :: [⟨4, 0, 21⟩, ⟨2, 0, 22⟩], a.slot ≤ r.slot) :=
  updateLatestAttestation_monotonic (fun q => if q = 2 then some ⟨5, 0, 10⟩ else none) 2
    ⟨7, 1, 11⟩ ⟨5, 0, 10⟩ ⟨3, 1, 12⟩ ⟨1, 0, 20⟩ [⟨4, 0, 21⟩, ⟨2, 0, 22⟩]
    (by decide) (by decide)

/-! ### C4: FFG checkpoint monotonicity and skip-slot resolution -/

lemma justifiedUpdate_finalized_fields (spe : Nat) (chain : List Block) (cp : CheckPts)
    (st : FFGState) :
    (justifiedUpdate spe chain cp st).finalizedEpoch = cp.finalizedEpoch ∧
    (justifiedUpdate spe chain cp st).finalizedBlock = cp.finalizedBlock := by
  simp only [justifiedUpdate]
  split
  · split <;> simp
  · exact ⟨rfl, rfl⟩

lemma finalizedUpdate_justified_fields (spe : Nat) (chain : List Block) (cp : CheckPts)
    (st : FFGState) :
    (finalizedUpdate spe chain cp st).justifiedEpoch = cp.justifiedEpoch ∧
    (finalizedUpdate spe chain cp st).justifiedBlock = cp.justifiedBlock := by
  simp only [finalizedUpdate]
  split
  · split <;> simp
  · exact ⟨rfl, rfl⟩

lemma finalizedUpdate_mono (spe : Nat) (chain : List Block) (cp : CheckPts)
    (st : FFGState) :
    cp.finalizedEpoch ≤ (finalizedUpdate spe chain cp st).finalizedEpoch := by
  simp only [finalizedUpdate]
  split
  · split
    · simp
      omega
    · exact le_refl _
  · exact le_refl _

lemma updateFFGCheckPts_finalized_mono (spe : Nat) (chain : List Block) (cp : CheckPts)
    (st : FFGState) :
    cp.finalizedEpoch ≤ (updateFFGCheckPts spe chain cp st).finalizedEpoch := by
  have h1 := (justifiedUpdate_finalized_fields spe chain cp st).1
  have h2 := finalizedUpdate_mono spe chain (justifiedUpdate spe chain cp st) st
  simp only [updateFFGCheckPts]
  omega

lemma foldl_updateFFGCheckPts_mono :
    ∀ (calls : List (Nat × List Block × FFGState)) (cp : CheckPts),
      cp.finalizedEpoch ≤
        (calls.foldl (fun c q => updateFFGCheckPts q.1 q.2.1 c q.2.2) cp).finalizedEpoch := by
  intro calls
  induction calls with
  | nil => intro cp; exact le_refl _
  | cons q rest ih =>
    intro cp
    exact le_trans (updateFFGCheckPts_finalized_mono q.1 q.2.1 cp q.2.2) (ih _)

lemma lastBlockAtOrBefore_spec (chain : List Block) (slot : Nat)
    (hsorted : chain.Pairwise (fun a b => b.slot < a.slot)) :
    ∀ b, lastBlockAtOrBefore chain slot = some b →
      b ∈ chain ∧ b.slot ≤ slot ∧ ∀ c ∈ chain, c.slot ≤ slot → c.slot ≤ b.slot := by
  induction chain with
  | nil => intro b hb; simp [lastBlockAtOrBefore] at hb
  | cons h t ih =>
    intro b hb
    rcases List.pairwise_cons.1 hsorted with ⟨hlt, htail⟩
    by_cases hh : h.slot ≤ slot
    · have he : lastBlockAtOrBefore (h :: t) slot = some h := by
        simp [lastBlockAtOrBefore, List.find?_cons_of_pos, hh]
      rw [he] at hb
      have hbh : h = b := by injection hb
      subst hbh
      refine ⟨List.mem_cons_self _ _, hh, ?_⟩
      intro c hc _
      rcases List.mem_cons.1 hc with rfl | hc'
      · exact le_refl _
      · exact le_of_lt (hlt c hc')
    · have he : lastBlockAtOrBefore (h :: t) slot = lastBlockAtOrBefore t slot := by
        simp only [lastBlockAtOrBefore]
        rw [List.find?_cons_of_neg]
        simpa using hh
      rw [he] at hb
      obtain ⟨hmem, hle, hdom⟩ := ih htail b hb
      refine ⟨List.mem_cons_of_mem _ hmem, hle, ?_⟩
      intro c hc hcle
      rcases List.mem_cons.1 hc with rfl | hc'
      · omega
      · exact hdom c hc' hcle

lemma finalizedUpdate_overwrite (spe : Nat) (chain : List Block) (cp : CheckPts)
    (st : FFGState) (b : Block)
    (hfin : cp.finalizedEpoch < st.finalizedEpoch)
    (hres : lastBlockAtOrBefore chain (st.finalizedEpoch * spe) = some b) :
    (finalizedUpdate spe chain cp st).finalizedBlock = b ∧
    (finalizedUpdate spe chain cp st).finalizedEpoch = st.finalizedEpoch := by
  simp only [finalizedUpdate, if_pos hfin, hres]
  exact ⟨trivial, trivial⟩

/-- C4: Checkpoint monotonicity with skip-slot resolution (modelled from the
spec; `updateFFGCheckPts` is not under `src/`, only its tests).  The stored
justified (resp. finalized) checkpoint is overwritten only when the state's
current-justified (resp. finalized) epoch exceeds the stored epoch; once a
finalized checkpoint at epoch `E` is stored, no sequence of calls regresses it
below `E`; and when the checkpoint is overwritten, the block persisted is the
last available block at or before the epoch's nominal start slot, so a skip
slot resolves to the nearest block at or below it. -/
theorem updateFFGCheckPts_monotonic_skipSlot
    (spe : Nat) (chain : List Block) (cp : CheckPts) (st : FFGState)
    (calls : List (Nat × List Block × FFGState)) (e : Nat) (b : Block)
    (hsorted : chain.Pairwise (fun a b => b.slot < a.slot))
    (hE : e ≤ cp.finalizedEpoch)
    (hfin : cp.finalizedEpoch < st.finalizedEpoch)
    (hres : lastBlockAtOrBefore chain (st.finalizedEpoch * spe) = some b) :
    (¬ cp.justifiedEpoch < st.currentJustifiedEpoch →
      (updateFFGCheckPts spe chain cp st).justifiedEpoch = cp.justifiedEpoch ∧
      (updateFFGCheckPts spe chain cp st).justifiedBlock = cp.justifiedBlock) ∧
    (∀ cp' : CheckPts, ¬ cp'.finalizedEpoch < st.finalizedEpoch →
      (updateFFGCheckPts spe chain cp' st).finalizedEpoch = cp'.finalizedEpoch ∧
      (updateFFGCheckPts spe chain cp' st).finalizedBlock = cp'.finalizedBlock) ∧
    (e ≤ (calls.foldl (fun c q => updateFFGCheckPts q.1 q.2.1 c q.2.2) cp).finalizedEpoch) ∧
    ((updateFFGCheckPts spe chain cp st).finalizedBlock = b ∧
      (updateFFGCheckPts spe chain cp st).finalizedEpoch = st.finalizedEpoch ∧
      b.slot ≤ st.finalizedEpoch * spe ∧
      ∀ c ∈ chain, c.slot ≤ st.finalizedEpoch * spe → c.slot ≤ b.slot) := by
  obtain ⟨hbmem, hble, hbdom⟩ := lastBlockAtOrBefore_spec chain (st.finalizedEpoch * spe)
    hsorted b hres
  refine ⟨?_, ?_, ?_, ?_⟩
  · intro hnj
    have hj : justifiedUpdate spe chain cp st = cp := by
      simp only [justifiedUpdate, if_neg hnj]
    simp only [updateFFGCheckPts, hj]
    exact finalizedUpdate_justified_fields spe chain cp st
  · intro cp' hnf
    have h1 := (justifiedUpdate_finalized_fields spe chain cp' st).1
    have h2 := (justifiedUpdate_finalized_fields spe chain cp' st).2
    have hnf' : ¬ (justifiedUpdate spe chain cp' st).finalizedEpoch < st.finalizedEpoch := by
      omega
    simp only [updateFFGCheckPts, finalizedUpdate, if_neg hnf']
    exact ⟨h1, h2⟩
  · exact le_trans hE (foldl_updateFFGCheckPts_mono calls cp)
  · have h1 := (justifiedUpdate_finalized_fields spe chain cp st).1
    have hfin' : (justifiedUpdate spe chain cp st).finalizedEpoch < st.finalizedEpoch := by
      omega
    obtain ⟨hb1, hb2⟩ := finalizedUpdate_overwrite spe chain
      (justifiedUpdate spe chain cp st) st b hfin' hres
    exact ⟨hb1, hb2, hble, hbdom⟩

/-- Witness for C4: a three-block descending chain with a skip at the nominal
slot 8 (finalized epoch advancing 0 to 1 with 8 slots per epoch): the block at
slot 6 is persisted. -/
theorem updateFFGCheckPts_monotonic_skipSlot_witness :
    (¬ (⟨0, ⟨1, 10, 0⟩, 0, ⟨1, 10, 0⟩⟩ : CheckPts).justifiedEpoch <
        (⟨1, 1⟩ : FFGState).currentJustifiedEpoch →
      (updateFFGCheckPts 8 [⟨6, 30, 20⟩, ⟨5, 20, 10⟩, ⟨1, 10, 0⟩]
          ⟨0, ⟨1, 10, 0⟩, 0, ⟨1, 10, 0⟩⟩ ⟨1, 1⟩).justifiedEpoch =
        (⟨0, ⟨1, 10, 0⟩, 0, ⟨1, 10, 0⟩⟩ : CheckPts).justifiedEpoch ∧
      (updateFFGCheckPts 8 [⟨6, 30, 20⟩, ⟨5, 20, 10⟩, ⟨1, 10, 0⟩]
          ⟨0, ⟨1, 10, 0⟩, 0, ⟨1, 10, 0⟩⟩ ⟨1, 1⟩).justifiedBlock =
        (⟨0, ⟨1, 10, 0⟩, 0, ⟨1, 10, 0⟩⟩ : CheckPts).justifiedBlock) ∧
    (∀ cp' : CheckPts, ¬ cp'.finalizedEpoch < (⟨1, 1⟩ : FFGState).finalizedEpoch →
      (updateFFGCheckPts 8 [⟨6, 30, 20⟩, ⟨5, 20, 10⟩, ⟨1, 10, 0⟩] cp' ⟨1, 1⟩).finalizedEpoch
          = cp'.finalizedEpoch ∧
      (updateFFGCheckPts 8 [⟨6, 30, 20⟩, ⟨5, 20, 10⟩, ⟨1, 10, 0⟩] cp' ⟨1, 1⟩).finalizedBlock
          = cp'.finalizedBlock) ∧
    ((0 : Nat) ≤ (([(8, [⟨6, 30, 20⟩], ⟨3, 3⟩)] :
        List (Nat × List Block × FFGState)).foldl
        (fun c q => updateFFGCheckPts q.1 q.2.1 c q.2.2)
        ⟨0, ⟨1, 10, 0⟩, 0, ⟨1, 10, 0⟩⟩).finalizedEpoch) ∧
    ((updateFFGCheckPts 8 [⟨6, 30, 20⟩, ⟨5, 20, 10⟩, ⟨1, 10, 0⟩]
        ⟨0, ⟨1, 10, 0⟩, 0, ⟨1, 10, 0⟩⟩ ⟨1, 1⟩).finalizedBlock = ⟨6, 30, 20⟩ ∧
      (updateFFGCheckPts 8 [⟨6, 30, 20⟩, ⟨5, 20, 10⟩, ⟨1, 10, 0⟩]
        ⟨0, ⟨1, 10, 0⟩, 0, ⟨1, 10, 0⟩⟩ ⟨1, 1⟩).finalizedEpoch =
        (⟨1, 1⟩ : FFGState).finalizedEpoch ∧
      (⟨6, 30, 20⟩ : Block).slot ≤ (⟨1, 1⟩ : FFGState).finalizedEpoch * 8 ∧
      ∀ c ∈ ([⟨6, 30, 20⟩, ⟨5, 20, 10⟩, ⟨1, 10, 0⟩] : List Block),
        c.slot ≤ (⟨1, 1⟩ : FFGState).finalizedEpoch * 8 →
          c.slot ≤ (⟨6, 30, 20⟩ : Block).slot) :=
  updateFFGCheckPts_monotonic_skipSlot 8 [⟨6, 30, 20⟩, ⟨5, 20, 10⟩, ⟨1, 10, 0⟩]
    ⟨0, ⟨1, 10, 0⟩, 0, ⟨1, 10, 0⟩⟩ ⟨1, 1⟩ [(8, [⟨6, 30, 20⟩], ⟨3, 3⟩)] 0 ⟨6, 30, 20⟩
    (by decide) (by decide) (by decide) (by decide)

/-! ### C5: LMD-GHOST selects the strict vote-count winner -/

lemma foldl_bestChild_winner (registry : List Validator)
    (targets : Nat → Option AttestationTarget) (store : List Block) :
    ∀ (t : List Block) (c0 c : Block), (c = c0 ∨ c ∈ t) →
      (∀ d, (d = c0 ∨ d ∈ t) → d ≠ c →
        VoteCount d registry targets store < VoteCount c registry targets store) →
      t.foldl (fun best d =>
        if VoteCount best registry targets store < VoteCount d registry targets store
        then d else best) c0 = c := by
  intro t
  induction t with
  | nil =>
    intro c0 c hmem _
    rcases hmem with rfl | h
    · rfl
    · cases h
  | cons d t ih =>
    intro c0 c hmem hdom
    have hstep : (d :: t).foldl (fun best e =>
        if VoteCount best registry targets store < VoteCount e registry targets store
        then e else best) c0 = t.foldl (fun best e =>
        if VoteCount best registry targets store < VoteCount e registry targets store
        then e else best) (if VoteCount c0 registry targets store <
          VoteCount d registry targets store then d else c0) := rfl
    rw [hstep]
    by_cases hc0 : c = c0
    · subst hc0
      have hd : (if VoteCount c registry targets store <
          VoteCount d registry targets store then d else c) = c := by
        by_cases hdc : d = c
        · subst hdc
          simp
        · rw [if_neg (Nat.not_lt_of_le (le_of_lt
            (hdom d (Or.inr (List.mem_cons_self d t)) hdc)))]
      rw [hd]
      exact ih c c (Or.inl rfl)
        (fun e he hne => hdom e (by
          rcases he with h | h
          · exact Or.inl h
          · exact Or.inr (List.mem_cons_of_mem d h)) hne)
    · rcases hmem with h | h
      · exact absurd h hc0
      rcases List.mem_cons.1 h with rfl | hct
      · -- c = d : the new head becomes c
        have hd : (if VoteCount c0 registry targets store <
            VoteCount c registry targets store then c else c0) = c := by
          rw [if_pos (hdom c0 (Or.inl rfl) (fun h => hc0 h.symm))]
        rw [hd]
        refine ih c c (Or.inl rfl) ?_
        intro e he hne
        refine hdom e ?_ hne
        rcases he with h | h
        · exact absurd h hne
        · exact Or.inr (List.mem_cons_of_mem _ h)
      · -- c is further in the tail
        refine ih _ c (Or.inr hct) ?_
        intro e he hne
        refine hdom e ?_ hne
        rcases he with h | h
        · by_cases hcond : VoteCount c0 registry targets store <
              VoteCount d registry targets store
          · rw [if_pos hcond] at h
            exact Or.inr (by rw [h]; exact List.mem_cons_self d t)
          · rw [if_neg hcond] at h
            exact Or.inl h
        · exact Or.inr (List.mem_cons_of_mem d h)

lemma bestChild_winner (registry : List Validator)
    (targets : Nat → Option AttestationTarget) (store : List Block)
    (cs : List Block) (c : Block) (hmem : c ∈ cs)
    (hdom : ∀ d ∈ cs, d ≠ c →
      VoteCount d registry targets store < VoteCount c registry targets store) :
    bestChild registry targets store cs = some c := by
  cases cs with
  | nil => cases hmem
  | cons c0 t =>
    show some _ = some c
    congr 1
    refine foldl_bestChild_winner registry targets store t c0 c ?_ ?_
    · rcases List.mem_cons.1 hmem with rfl | h
      · exact Or.inl rfl
      · exact Or.inr h
    · intro d hd hne
      refine hdom d ?_ hne
      rcases hd with rfl | h
      · exact List.mem_cons_self _ _
      · exact List.mem_cons_of_mem _ h

/-- C5: LMD-GHOST head selection (modelled from the spec; `lmdGhost` is not
under `src/`, only its tests).  From a start block whose children (at or below
the state's slot) contain a strict vote-count winner `c` — in particular three
siblings with two tied and one strictly higher — the engine descends into `c`
regardless of the order in which the store lists the children, and since `c`
has no children it is returned as head; a start block with no children is
itself returned, and the whole computation is a pure function of its inputs. -/
theorem lmdGhost_strict_winner (fuel : Nat) (store : List Block)
    (registry : List Validator) (targets : Nat → Option AttestationTarget)
    (stateSlot : Nat) (start c : Block)
    (hmem : c ∈ BlockChildren store start stateSlot)
    (hdom : ∀ d ∈ BlockChildren store start stateSlot, d ≠ c →
      VoteCount d registry targets store < VoteCount c registry targets store)
    (hleaf : BlockChildren store c stateSlot = [])
    (hfuel : 1 ≤ fuel) :
    lmdGhost fuel store registry targets stateSlot start = c ∧
    (∀ f (b : Block), BlockChildren store b stateSlot = [] →
      lmdGhost f store registry targets stateSlot b = b) := by
  have hbase : ∀ f (b : Block), BlockChildren store b stateSlot = [] →
      lmdGhost f store registry targets stateSlot b = b := by
    intro f b hb
    cases f with
    | zero => rfl
    | succ f => simp [lmdGhost, hb, bestChild]
  refine ⟨?_, hbase⟩
  cases fuel with
  | zero => omega
  | succ f =>
    show (match bestChild registry targets store (BlockChildren store start stateSlot) with
      | none => start
      | some c' => lmdGhost f store registry targets stateSlot c') = c
    rw [bestChild_winner registry targets store _ c hmem hdom]
    exact hbase f c hleaf

/-- Witness for C5: a block with three children at slots 2, 3, 4; validators 2
and 3 vote for the slot-4 child, validators 0 and 1 split between the others,
so the slot-4 child wins strictly and becomes head. -/
theorem lmdGhost_strict_winner_witness :
    lmdGhost 2 [⟨1, 1, 0⟩, ⟨2, 2, 1⟩, ⟨3, 3, 1⟩, ⟨4, 4, 1⟩] [⟨32⟩, ⟨32⟩, ⟨32⟩, ⟨32⟩]
      (fun i => if i = 0 then some ⟨2, 2, 1⟩ else if i = 1 then some ⟨3, 3, 1⟩
        else if i ≤ 3 then some ⟨4, 4, 1⟩ else none) 10 ⟨1, 1, 0⟩ = ⟨4, 4, 1⟩ ∧
    (∀ f (b : Block),
      BlockChildren [⟨1, 1, 0⟩, ⟨2, 2, 1⟩, ⟨3, 3, 1⟩, ⟨4, 4, 1⟩] b 10 = [] →
      lmdGhost f [⟨1, 1, 0⟩, ⟨2, 2, 1⟩, ⟨3, 3, 1⟩, ⟨4, 4, 1⟩] [⟨32⟩, ⟨32⟩, ⟨32⟩, ⟨32⟩]
        (fun i => if i = 0 then some ⟨2, 2, 1⟩ else if i = 1 then some ⟨3, 3, 1⟩
          else if i ≤ 3 then some ⟨4, 4, 1⟩ else none) 10 b = b) :=
  lmdGhost_strict_winner 2 [⟨1, 1, 0⟩, ⟨2, 2, 1⟩, ⟨3, 3, 1⟩, ⟨4, 4, 1⟩]
    [⟨32⟩, ⟨32⟩, ⟨32⟩, ⟨32⟩]
    (fun i => if i = 0 then some ⟨2, 2, 1⟩ else if i = 1 then some ⟨3, 3, 1⟩
      else if i ≤ 3 then some ⟨4, 4, 1⟩ else none) 10 ⟨1, 1, 0⟩ ⟨4, 4, 1⟩
    (by decide) (by decide) (by decide) (by decide)

/-! ### C7: VoteCount as a sum over supporting validators -/

lemma foldl_add_map_sum (f : Nat → Nat) :
    ∀ (l : List Nat) (acc : Nat), l.foldl (fun a y => a + f y) acc = acc + (l.map f).sum := by
  intro l
  induction l with
  | nil => intro acc; simp
  | cons y t ih =>
    intro acc
    simp only [List.foldl_cons, List.map_cons, List.sum_cons, ih]
    omega

lemma voteContribution_eq_if (store : List Block) (candidate : Block) (bal : Nat)
    (topt : Option AttestationTarget) :
    voteContribution store candidate bal topt =
      if supportsCandidate store candidate topt then bal else 0 := by
  cases topt with
  | none => rfl
  | some t =>
    rcases hA : ancestorAtSlot store (store.length + 1) t.blockRoot candidate.slot with _ | a
    · simp [voteContribution, supportsCandidate, hA]
    · simp only [voteContribution, supportsCandidate, hA]

lemma ancestorAtSlot_none_of_missing (store : List Block) (slot : Nat) :
    ∀ (fuel : Nat) (root : Nat), lookupBlock store root = none →
      ancestorAtSlot store fuel root slot = none := by
  intro fuel root h
  cases fuel with
  | zero => rfl
  | succ f => simp [ancestorAtSlot, h]

/-- C7: VoteCount correctness (modelled from the spec; `VoteCount` is not
under `src/`, only its tests).  `VoteCount` is the sum, over all validator
indices of the registry, of the effective balances of exactly those validators
whose vote target's block equals the candidate or descends from it; a
validator with no recorded target contributes zero, and a target whose
ancestor walk hits an unknown block or parent contributes zero without
failing the computation. -/
theorem voteCount_correct (candidate : Block) (registry : List Validator)
    (targets : Nat → Option AttestationTarget) (store : List Block)
    (idxN bal : Nat) (t : AttestationTarget) (tb : Block)
    (hnone : targets idxN = none)
    (h1 : lookupBlock store t.blockRoot = some tb)
    (h2 : ¬ tb.slot ≤ candidate.slot)
    (h3 : lookupBlock store tb.parentRoot = none) :
    VoteCount candidate registry targets store =
      ((List.range registry.length).map (fun i =>
        if supportsCandidate store candidate (targets i)
        then (registry.getD i ⟨0⟩).effectiveBalance else 0)).sum ∧
    voteContribution store candidate bal (targets idxN) = 0 ∧
    voteContribution store candidate bal (some t) = 0 := by
  refine ⟨?_, ?_, ?_⟩
  · simp only [VoteCount]
    rw [foldl_add_map_sum (fun idx => voteContribution store candidate
      ((registry.getD idx ⟨0⟩).effectiveBalance) (targets idx)) (List.range registry.length) 0]
    rw [Nat.zero_add]
    congr 1
    refine List.map_congr_left (fun i _ => ?_)
    exact voteContribution_eq_if store candidate _ (targets i)
  · rw [hnone]
    rfl
  · simp only [voteContribution]
    have hc : store.length + 1 = store.length + 1 := rfl
    have hwalk : ancestorAtSlot store (store.length + 1) t.blockRoot candidate.slot
        = none := by
      show (match lookupBlock store t.blockRoot with
        | none => none
        | some b => if b.slot ≤ candidate.slot then some b
            else ancestorAtSlot store store.length b.parentRoot candidate.slot) = none
      rw [h1]
      simp only [if_neg h2]
      exact ancestorAtSlot_none_of_missing store candidate.slot store.length tb.parentRoot h3
    rw [hwalk]

/-- Witness for C7: a two-block store where the vote target's block has an
unknown parent, one validator with no target, and a one-validator registry. -/
theorem voteCount_correct_witness :
    VoteCount ⟨0, 1, 99⟩ [⟨1000000000⟩]
      (fun i => if i = 0 then some ⟨5, 2, 77⟩ else none)
      [⟨0, 1, 99⟩, ⟨5, 2, 77⟩] =
      ((List.range ([⟨1000000000⟩] : List Validator).length).map (fun i =>
        if supportsCandidate [⟨0, 1, 99⟩, ⟨5, 2, 77⟩] ⟨0, 1, 99⟩
            ((fun i => if i = 0 then some ⟨5, 2, 77⟩ else none) i)
        then (([⟨1000000000⟩] : List Validator).getD i ⟨0⟩).effectiveBalance else 0)).sum ∧
    voteContribution [⟨0, 1, 99⟩, ⟨5, 2, 77⟩] ⟨0, 1, 99⟩ 1000000000
      ((fun i => if i = 0 then some ⟨5, 2, 77⟩ else none) 7) = 0 ∧
    voteContribution [⟨0, 1, 99⟩, ⟨5, 2, 77⟩] ⟨0, 1, 99⟩ 1000000000
      (some ⟨5, 2, 77⟩) = 0 :=
  voteCount_correct ⟨0, 1, 99⟩ [⟨1000000000⟩]
    (fun i => if i = 0 then some ⟨5, 2, 77⟩ else none) [⟨0, 1, 99⟩, ⟨5, 2, 77⟩]
    7 1000000000 ⟨5, 2, 77⟩ ⟨5, 2, 77⟩ (by decide) (by decide) (by decide) (by decide)

/-! ### C6: replay from the canonical chain equals live sequential processing -/

lemma slotsFrom_append (a m k : Nat) :
    slotsFrom a (m + k) = slotsFrom a m ++ slotsFrom (a + m) k := by
  simp only [slotsFrom, List.range_add, List.map_append, List.map_map]
  congr 1
  refine List.map_congr_left (fun x _ => ?_)
  simp only [Function.comp_apply]
  omega

lemma slotsFrom_one (a : Nat) : slotsFrom a 1 = [a + 1] := rfl

lemma mem_slotsFrom (a cnt s : Nat) (h : s ∈ slotsFrom a cnt) : a < s ∧ s ≤ a + cnt := by
  simp only [slotsFrom, List.mem_map, List.mem_range] at h
  rcases h with ⟨k, hk, rfl⟩
  omega

lemma applySlots_append {σ : Type} (advance : σ → Option Block → σ)
    (blockAt : Nat → Option Block) (st : σ) (l1 l2 : List Nat) :
    applySlots advance blockAt st (l1 ++ l2)
      = applySlots advance blockAt (applySlots advance blockAt st l1) l2 := by
  simp [applySlots, List.foldl_append]

lemma applySlots_congr {σ : Type} (advance : σ → Option Block → σ)
    (f1 f2 : Nat → Option Block) :
    ∀ (slots : List Nat) (st : σ), (∀ s ∈ slots, f1 s = f2 s) →
      applySlots advance f1 st slots = applySlots advance f2 st slots := by
  intro slots
  induction slots with
  | nil => intro st _; rfl
  | cons s t ih =>
    intro st h
    show applySlots advance f1 (advance st (f1 s)) t = _
    rw [h s (List.mem_cons_self s t), ih _ (fun q hq => h q (List.mem_cons_of_mem s hq))]
    rfl

lemma applySlots_none {σ : Type} (advance : σ → Option Block → σ)
    (blockAt : Nat → Option Block) :
    ∀ (m : Nat) (a : Nat) (st : σ), (∀ s ∈ slotsFrom a m, blockAt s = none) →
      applySlots advance blockAt st (slotsFrom a m) = advanceEmpty advance m st := by
  intro m
  induction m with
  | zero => intro a st _; rfl
  | succ c ih =>
    intro a st h
    have hsucc : slotsFrom a (c + 1) = (a + 1) :: slotsFrom (a + 1) c := by
      have h1 : c + 1 = 1 + c := by omega
      rw [h1, slotsFrom_append, slotsFrom_one]
      rfl
    rw [hsucc]
    show applySlots advance blockAt (advance st (blockAt (a + 1))) (slotsFrom (a + 1) c)
      = advanceEmpty advance (c + 1) st
    rw [h (a + 1) (by rw [hsucc]; exact List.mem_cons_self _ _)]
    rw [ih (a + 1) (advance st none)
      (fun s hs => h s (by rw [hsucc]; exact List.mem_cons_of_mem _ hs))]
    rfl

lemma slotOf_advanceEmpty {σ : Type} (advance : σ → Option Block → σ) (slotOf : σ → Nat)
    (hadv : ∀ s b, slotOf (advance s b) = slotOf s + 1) :
    ∀ (cnt : Nat) (st : σ), slotOf (advanceEmpty advance cnt st) = slotOf st + cnt := by
  intro cnt
  induction cnt with
  | zero => intro st; rfl
  | succ c ih =>
    intro st
    show slotOf (advanceEmpty advance c (advance st none)) = slotOf st + (c + 1)
    rw [ih (advance st none), hadv]
    omega

lemma blockAtOf_none (s : Nat) :
    ∀ (blocks : List Block), (∀ c ∈ blocks, c.slot ≠ s) → blockAtOf blocks s = none := by
  intro blocks
  induction blocks with
  | nil => intro _; rfl
  | cons b t ih =>
    intro h
    simp only [blockAtOf]
    rw [List.find?_cons_of_neg, ← blockAtOf]
    · exact ih (fun c hc => h c (List.mem_cons_of_mem b hc))
    · simpa using h b (List.mem_cons_self b t)

lemma blockAtOf_head (b : Block) (rest : List Block) :
    blockAtOf (b :: rest) b.slot = some b := by
  simp only [blockAtOf]
  rw [List.find?_cons_of_pos]
  simp

lemma blockAtOf_tail (b : Block) (rest : List Block) (s : Nat) (h : b.slot ≠ s) :
    blockAtOf (b :: rest) s = blockAtOf rest s := by
  simp only [blockAtOf]
  rw [List.find?_cons_of_neg]
  simpa using h

lemma generate_eq_live_aux {σ : Type} (advance : σ → Option Block → σ) (slotOf : σ → Nat)
    (hadv : ∀ s b, slotOf (advance s b) = slotOf s + 1) :
    ∀ (blocks : List Block) (st : σ) (target : Nat),
      blocks.Pairwise (fun a b => a.slot < b.slot) →
      (∀ b ∈ blocks, slotOf st < b.slot ∧ b.slot ≤ target) →
      applySlots advance (blockAtOf blocks) st (slotsFrom (slotOf st) (target - slotOf st))
        = liveProcessTo advance slotOf blocks st target := by
  intro blocks
  induction blocks with
  | nil =>
    intro st target _ _
    show applySlots advance (blockAtOf []) st (slotsFrom (slotOf st) (target - slotOf st))
      = advanceEmpty advance (target - slotOf st) st
    exact applySlots_none advance (blockAtOf []) (target - slotOf st) (slotOf st) st
      (fun s _ => rfl)
  | cons b rest ih =>
    intro st target hsorted hrange
    rcases List.pairwise_cons.1 hsorted with ⟨hlt, htail⟩
    obtain ⟨hgt, hle⟩ := hrange b (List.mem_cons_self b rest)
    have hsplit1 : target - slotOf st = (b.slot - slotOf st - 1) + (1 + (target - b.slot)) := by
      omega
    rw [hsplit1, slotsFrom_append, applySlots_append]
    have hpre : applySlots advance (blockAtOf (b :: rest)) st
        (slotsFrom (slotOf st) (b.slot - slotOf st - 1))
        = advanceEmpty advance (b.slot - slotOf st - 1) st := by
      refine applySlots_none advance _ _ _ st (fun s hs => ?_)
      obtain ⟨h1, h2⟩ := mem_slotsFrom _ _ s hs
      refine blockAtOf_none s (b :: rest) (fun c hc => ?_)
      rcases List.mem_cons.1 hc with rfl | hc'
      · omega
      · have := hlt c hc'
        omega
    rw [hpre]
    set st1 := advanceEmpty advance (b.slot - slotOf st - 1) st with hst1
    have hslot1 : slotOf st1 = b.slot - 1 := by
      rw [hst1, slotOf_advanceEmpty advance slotOf hadv]
      omega
    have hs1 : slotOf st + (b.slot - slotOf st - 1) = b.slot - 1 := by omega
    rw [hs1]
    have hsplit2 : (1 : Nat) + (target - b.slot) = 1 + (target - b.slot) := rfl
    rw [slotsFrom_append, slotsFrom_one, applySlots_append]
    have hb1 : b.slot - 1 + 1 = b.slot := by omega
    have hstep : applySlots advance (blockAtOf (b :: rest)) st1 [b.slot - 1 + 1]
        = advance st1 (some b) := by
      show advance st1 (blockAtOf (b :: rest) (b.slot - 1 + 1)) = advance st1 (some b)
      rw [hb1, blockAtOf_head]
    rw [hstep]
    set st2 := advance st1 (some b) with hst2
    have hslot2 : slotOf st2 = b.slot := by
      rw [hst2, hadv]
      omega
    have htailAt : applySlots advance (blockAtOf (b :: rest)) st2
        (slotsFrom (b.slot - 1 + 1) (target - b.slot))
        = applySlots advance (blockAtOf rest) st2
          (slotsFrom (b.slot - 1 + 1) (target - b.slot)) := by
      refine applySlots_congr advance _ _ _ st2 (fun s hs => ?_)
      obtain ⟨h1, h2⟩ := mem_slotsFrom _ _ s hs
      exact blockAtOf_tail b rest s (by omega)
    rw [htailAt]
    have hrw : slotsFrom (b.slot - 1 + 1) (target - b.slot)
        = slotsFrom (slotOf st2) (target - slotOf st2) := by
      rw [hslot2, hb1]
    rw [hrw]
    rw [ih st2 target htail (fun c hc => ⟨by rw [hslot2]; exact hlt c hc,
      (hrange c (List.mem_cons_of_mem b hc)).2⟩)]
    show liveProcessTo advance slotOf rest (advance (advanceEmpty advance
      (b.slot - slotOf st - 1) st) (some b)) target = _
    rfl

/-- C6: State regeneration equivalence (modelled from the spec;
`GenerateStateFromBlock` is not under `src/`, only its tests).  For a strictly
slot-ascending canonical block history lying after the saved state's slot and
at or before the target slot, replaying every slot with the canonical block
when one exists and the no-block transition for skip slots produces exactly
the state of live, sequential processing of the same block history, for every
deterministic per-slot transition that advances the slot by one. -/
theorem generateStateFromBlock_eq_live {σ : Type} (advance : σ → Option Block → σ)
    (slotOf : σ → Nat) (blocks : List Block) (saved : σ) (target : Nat)
    (hadv : ∀ s b, slotOf (advance s b) = slotOf s + 1)
    (hsorted : blocks.Pairwise (fun a b => a.slot < b.slot))
    (hrange : ∀ b ∈ blocks, slotOf saved < b.slot ∧ b.slot ≤ target) :
    GenerateStateFromBlock advance slotOf (blockAtOf blocks) saved target
      = liveProcessTo advance slotOf blocks saved target :=
  generate_eq_live_aux advance slotOf hadv blocks saved target hsorted hrange

/-- Witness for C6: a log-recording transition, two blocks at slots 2 and 5
(skip slots 1, 3, 4 and 6), target slot 6. -/
theorem generateStateFromBlock_eq_live_witness :
    GenerateStateFromBlock (fun s b => (s.1 + 1, s.2 ++ [b.map Block.root]))
      (fun s : Nat × List (Option Nat) => s.1)
      (blockAtOf [⟨2, 5, 0⟩, ⟨5, 6, 5⟩]) (0, []) 6
      = liveProcessTo (fun s b => (s.1 + 1, s.2 ++ [b.map Block.root]))
        (fun s : Nat × List (Option Nat) => s.1) [⟨2, 5, 0⟩, ⟨5, 6, 5⟩] (0, []) 6 :=
  generateStateFromBlock_eq_live (fun s b => (s.1 + 1, s.2 ++ [b.map Block.root]))
    (fun s => s.1) [⟨2, 5, 0⟩, ⟨5, 6, 5⟩] (0, []) 6
    (fun _ _ => rfl) (by decide) (by decide)
